import Mathlib

/-!
yuno-solver: a verification development.

A shallow embedding of `include/matrix.h`, `include/solve.h`, `src/solve.cpp` and of the
line normalisation of `src/yuno-solver.cpp`, followed by theorems about it.

Conventions of the embedding.

* `std::ptrdiff_t` and `int` are `Int`.  No arithmetic of the program leaves the range of its
  machine type unless a grid line has at least `2^31` cells, and such grids are not considered.
* A function that can throw returns `Except Exn _`.  `Exn.range_error` and `Exn.logic_error`
  carry the `what()` text of the C++ exception.
* Behaviour the language leaves undefined (an unchecked access outside the storage of a
  `std::vector`, dereferencing an end iterator, flowing off the end of a value-returning
  function) is the result `Exn.undefined`.
* A mutable `Matrix<Cell>&` argument is threaded through: the function returns the grid it
  leaves behind next to its result.
* The recursion of `detail::solve` is driven by a fuel counter; `Exn.fuel` is the result of
  running out of it.
-/

namespace yunosolver

/-! ## Failures -/

/-- Ways in which an operation does not return normally. -/
inductive Exn where
  | range_error (what : String)
  | logic_error (what : String)
  | length_error
  | undefined
  | fuel
  deriving DecidableEq, Repr

/-! ## solve.h -/

/-- The enum class `Cell` of `solve.h`; `None` is the value-initialised state. -/
inductive Cell where
  | None
  | Empty
  | Filled
  deriving DecidableEq, Repr

instance : Inhabited Cell := ⟨Cell.None⟩

/-- The struct `ProblemInput` of `solve.h`. -/
structure ProblemInput where
  rowdef : List (List Int)
  coldef : List (List Int)
  deriving DecidableEq, Repr

/-! ## matrix.h -/

/-- Unchecked `operator[]` of a `std::vector`, the index being a signed integer. -/
def vecAt {α : Type} (v : List α) (i : Int) : Except Exn α :=
  if i < 0 then .error .undefined
  else match v[i.toNat]? with
    | some x => .ok x
    | none => .error .undefined

/-- Unchecked assignment `v[i] = x` to an element of a `std::vector`. -/
def vecSet {α : Type} (v : List α) (i : Int) (x : α) : Except Exn (List α) :=
  if i < 0 then .error .undefined
  else if i.toNat < v.length then .ok (v.set i.toNat x)
  else .error .undefined

/-- The class `Matrix<T>`: the storage `c` and the two extents. -/
structure Matrix (T : Type) where
  c : List T
  rownum_ : Int
  colnum_ : Int
  deriving DecidableEq, Repr

/-- The class `MatrixIndex`. -/
structure MatrixIndex where
  rownum_ : Int
  colnum_ : Int
  row_ : Int
  col_ : Int
  deriving DecidableEq, Repr

namespace Matrix

variable {T : Type}

/-- The data-model invariant of a grid: the storage holds `rownum_ * colnum_` cells. -/
def WellFormed (m : Matrix T) : Prop :=
  (m.c.length : Int) = m.rownum_ * m.colnum_

instance (m : Matrix T) : Decidable m.WellFormed := by
  unfold WellFormed; infer_instance

/-- `Matrix(row_size, column_size)`: `row_size * column_size` value-initialised cells.
A negative product is an element count no vector can hold. -/
def sized [Inhabited T] (row_size column_size : Int) : Except Exn (Matrix T) :=
  if row_size * column_size < 0 then .error .length_error
  else .ok ⟨List.replicate (row_size * column_size).toNat default, row_size, column_size⟩

/-- `row_size()`. -/
def row_size (m : Matrix T) : Int := m.rownum_

/-- `column_size()`. -/
def column_size (m : Matrix T) : Int := m.colnum_

/-- `size()`. -/
def size (m : Matrix T) : Nat := m.c.length

/-- `clear()`. -/
def clear (_m : Matrix T) : Matrix T := ⟨[], 0, 0⟩

/-- `operator()(row, column)` read: `c[row * colnum_ + column]`. -/
def get (m : Matrix T) (row column : Int) : Except Exn T :=
  vecAt m.c (row * m.colnum_ + column)

/-- `operator()(row, column)` written through: `c[row * colnum_ + column] = value`. -/
def set (m : Matrix T) (row column : Int) (value : T) : Except Exn (Matrix T) :=
  match vecSet m.c (row * m.colnum_ + column) value with
  | .error e => .error e
  | .ok c => .ok { m with c := c }

/-- `operator[](const MatrixIndex&)` read. -/
def getIdx (m : Matrix T) (idx : MatrixIndex) : Except Exn T :=
  m.get idx.row_ idx.col_

/-- `operator[](const MatrixIndex&)` written through. -/
def setIdx (m : Matrix T) (idx : MatrixIndex) (value : T) : Except Exn (Matrix T) :=
  m.set idx.row_ idx.col_ value

/-- `bound_check(row, column)`. -/
def bound_check (m : Matrix T) (row column : Int) : Except Exn Unit :=
  if row < 0 ∨ row ≥ m.rownum_ then .error (.range_error "matrix row out of range")
  else if column < 0 ∨ column ≥ m.colnum_ then .error (.range_error "matrix column out of range")
  else .ok ()

/-- `index_check(idx)`. -/
def index_check (m : Matrix T) (idx : MatrixIndex) : Except Exn Unit :=
  if idx.rownum_ ≠ m.row_size then .error (.range_error "invalid matrix index")
  else if idx.colnum_ ≠ m.column_size then .error (.range_error "invalid matrix index")
  else m.bound_check idx.row_ idx.col_

/-- `at(row, column)`. -/
def at_ (m : Matrix T) (row column : Int) : Except Exn T :=
  match m.bound_check row column with
  | .error e => .error e
  | .ok () => m.get row column

/-- `at(const MatrixIndex&)`. -/
def atIdx (m : Matrix T) (idx : MatrixIndex) : Except Exn T :=
  match m.index_check idx with
  | .error e => .error e
  | .ok () => m.getIdx idx

/-- The members after the three assignments and `other.clear()` of `operator=(Matrix&&)`:
the assigned object first, `other` second. -/
def moveAssignBody (_m other : Matrix T) : Matrix T × Matrix T :=
  (⟨other.c, other.rownum_, other.colnum_⟩, other.clear)

/-- `Matrix& operator=(Matrix&& other)`.  Its body is the three assignments and
`other.clear()`; there is no `return` statement, so control flows off the end of a function
whose return type is `Matrix&`. -/
def moveAssign (m other : Matrix T) : Except Exn (Matrix T × Matrix T) :=
  let _after := moveAssignBody m other
  .error .undefined

/-- The inner loop of `resize`, `for (col = 0; col != cols; col++)`, with `n` iterations
left: `ret(row, col) = (*this)(row, col)`. -/
def resizeCols (m : Matrix T) (row : Int) : Nat → Int → Matrix T → Except Exn (Matrix T)
  | 0, _, ret => .ok ret
  | n + 1, col, ret =>
    match m.get row col with
    | .error e => .error e
    | .ok x =>
      match ret.set row col x with
      | .error e => .error e
      | .ok ret1 => resizeCols m row n (col + 1) ret1

/-- The outer loop of `resize`, `for (row = 0; row != rows; row++)`, with `n` iterations
left.  With `cols < 0` the inner loop counts upwards without ever meeting `cols`. -/
def resizeRows (m : Matrix T) (cols : Int) : Nat → Int → Matrix T → Except Exn (Matrix T)
  | 0, _, ret => .ok ret
  | n + 1, row, ret =>
    if cols < 0 then .error .undefined
    else
      match resizeCols m row cols.toNat 0 ret with
      | .error e => .error e
      | .ok ret1 => resizeRows m cols n (row + 1) ret1

/-- The local `ret` of `resize` when the two loops are done.  With `rows < 0` the outer
loop counts upwards without ever meeting `rows`. -/
def resizeBody [Inhabited T] (m : Matrix T) (row_size column_size : Int) :
    Except Exn (Matrix T) :=
  match (sized row_size column_size : Except Exn (Matrix T)) with
  | .error e => .error e
  | .ok ret =>
    let rows := min m.rownum_ row_size
    let cols := min m.colnum_ column_size
    if rows < 0 then .error .undefined
    else resizeRows m cols rows.toNat 0 ret

/-- `resize(row_size, column_size)`: build `ret`, then `*this = std::move(ret)`. -/
def resize [Inhabited T] (m : Matrix T) (row_size column_size : Int) :
    Except Exn (Matrix T) :=
  match m.resizeBody row_size column_size with
  | .error e => .error e
  | .ok ret =>
    match m.moveAssign ret with
    | .error e => .error e
    | .ok (m1, _) => .ok m1

end Matrix

namespace MatrixIndex

/-- `MatrixIndex(row_size, column_size)`: the position members keep their initialiser `0`. -/
def ofSizes (row_size column_size : Int) : MatrixIndex := ⟨row_size, column_size, 0, 0⟩

/-- `MatrixIndex(const Matrix<T>&)`. -/
def ofMatrix {T : Type} (m : Matrix T) : MatrixIndex := ofSizes m.row_size m.column_size

/-- `is_begin()`. -/
def is_begin (idx : MatrixIndex) : Bool := idx.row_ == 0 && idx.col_ == 0

/-- `is_end()`. -/
def is_end (idx : MatrixIndex) : Bool := idx.row_ == idx.rownum_

/-- Prefix `operator++`. -/
def advance (idx : MatrixIndex) : MatrixIndex :=
  let col := idx.col_ + 1
  if col = idx.colnum_ then { idx with col_ := 0, row_ := idx.row_ + 1 }
  else { idx with col_ := col }

/-- Prefix `operator--`. -/
def retreat (idx : MatrixIndex) : MatrixIndex :=
  let idx1 := if idx.col_ = 0 then { idx with col_ := idx.colnum_, row_ := idx.row_ - 1 } else idx
  { idx1 with col_ := idx1.col_ - 1 }

end MatrixIndex

/-! ## solve.cpp -/

namespace detail

/-- `*curr` for the iterator `curr` into `ref`, held as the part of `ref` from `curr` to
`last`; `curr == last` is the empty list. -/
def deref : List Int → Except Exn Int
  | [] => .error .undefined
  | e :: _ => .ok e

/-- What the body of the `for` loop of `doCheck` does with the cell it has read, in the state
`(curr, num, prev)`: `none` is `return false`, `some` is the state after `break`. -/
def doCheckCell (curr : List Int) (num : Int) (prev : Bool) :
    Cell → Except Exn (Option (List Int × Int × Bool))
  | Cell.Empty =>
    if prev then
      match deref curr with
      | .error e => .error e
      | .ok expected =>
        if num ≠ expected then .ok none
        else .ok (some (curr.tail, 0, false))
    else .ok (some (curr, num, prev))
  | Cell.Filled =>
    if (!prev) && curr.isEmpty then .ok none
    else
      match deref curr with
      | .error e => .error e
      | .ok expected =>
        if num + 1 > expected then .ok none
        else .ok (some (curr, num + 1, true))
  | Cell.None => .error (.logic_error "logic error in yunosolver::solve")

/-- The part of `doCheck` after the loop. -/
def doCheckEnd (exact : Bool) (curr : List Int) (num : Int) (prev : Bool) : Except Exn Bool :=
  if exact then
    if prev then
      match deref curr with
      | .error e => .error e
      | .ok expected =>
        if num ≠ expected then .ok false
        else if curr.tail ≠ [] then .ok false
        else .ok true
    else if curr ≠ [] then .ok false
    else .ok true
  else .ok true

/-- The loop `for (i = ...; i < bound; i++)` of `doCheck` with `n` iterations left, followed
by the rest of the function. -/
def doCheckLoop (get : Int → Except Exn Cell) (exact : Bool) :
    Nat → Int → List Int → Int → Bool → Except Exn Bool
  | 0, _, curr, num, prev => doCheckEnd exact curr num prev
  | n + 1, i, curr, num, prev =>
    match get i with
    | .error e => .error e
    | .ok cell =>
      match doCheckCell curr num prev cell with
      | .error e => .error e
      | .ok none => .ok false
      | .ok (some (curr1, num1, prev1)) => doCheckLoop get exact n (i + 1) curr1 num1 prev1

/-- The lambda `doCheck(get, ref, bound, exact)` of `detail::check`. -/
def doCheck (get : Int → Except Exn Cell) (ref : List Int) (bound : Int) (exact : Bool) :
    Except Exn Bool :=
  doCheckLoop get exact bound.toNat 0 ref 0 false

/-- `detail::check(data, idx, input)`; the second `doCheck` runs only when the first
returned `true`. -/
def check (data : Matrix Cell) (idx : MatrixIndex) (input : ProblemInput) : Except Exn Bool :=
  match vecAt input.rowdef idx.row_ with
  | .error e => .error e
  | .ok rowref =>
    match doCheck (fun column => data.get idx.row_ column) rowref (idx.col_ + 1)
        (idx.col_ + 1 == data.column_size) with
    | .error e => .error e
    | .ok false => .ok false
    | .ok true =>
      match vecAt input.coldef idx.col_ with
      | .error e => .error e
      | .ok colref =>
        doCheck (fun row => data.get row idx.col_) colref (idx.row_ + 1)
          (idx.row_ + 1 == data.row_size)

/-- One round of the loop `for (Cell val : {Cell::Empty, Cell::Filled})` of
`detail::solve`, the recursive call being `recurse`: the result is `true` with the grid when
the round returns `true`, and `false` with the grid when the round ends in `continue` or
reaches the end of the loop body. -/
def solveTry (recurse : Matrix Cell → MatrixIndex → Except Exn (Bool × Matrix Cell))
    (data : Matrix Cell) (idx : MatrixIndex) (input : ProblemInput) (val : Cell) :
    Except Exn (Bool × Matrix Cell) :=
  match data.setIdx idx val with
  | .error e => .error e
  | .ok data1 =>
    match check data1 idx input with
    | .error e => .error e
    | .ok false => .ok (false, data1)
    | .ok true => recurse data1 idx.advance

/-- `detail::solve(data, idx, input)` with a bound on the depth of the recursion. -/
def solve (input : ProblemInput) : Nat → Matrix Cell → MatrixIndex →
    Except Exn (Bool × Matrix Cell)
  | 0, _, _ => .error .fuel
  | fuel + 1, data, idx =>
    if idx.is_end then .ok (true, data)
    else
      match solveTry (solve input fuel) data idx input Cell.Empty with
      | .error e => .error e
      | .ok (true, data1) => .ok (true, data1)
      | .ok (false, data1) =>
        match solveTry (solve input fuel) data1 idx input Cell.Filled with
        | .error e => .error e
        | .ok (true, data2) => .ok (true, data2)
        | .ok (false, data2) => .ok (false, data2)

end detail

/-- `solve(input)`: the recursion is given `rows * columns + 1` levels, one more than there
are cells. -/
def solve (input : ProblemInput) : Except Exn (Option (Matrix Cell)) :=
  match (Matrix.sized input.rowdef.length input.coldef.length : Except Exn (Matrix Cell)) with
  | .error e => .error e
  | .ok data =>
    let idx := MatrixIndex.ofMatrix data
    match detail.solve input (input.rowdef.length * input.coldef.length + 1) data idx with
    | .error e => .error e
    | .ok (true, data1) => .ok (some data1)
    | .ok (false, _) => .ok none

/-! ## yuno-solver.cpp -/

/-- The end of `readOneLine`: the integers read from one line, a single `0` standing for the
empty definition. -/
def readOneLineResult (ret : List Int) : List Int :=
  if ret.length = 1 ∧ ret.head? = some 0 then [] else ret

/-! ## Reference notions -/

/-- Number of `Filled` cells at the front of a line. -/
def leadingFilled : List Cell → Nat
  | Cell.Filled :: rest => leadingFilled rest + 1
  | _ => 0

/-- Lengths of the maximal runs of `Filled` cells of a line that start inside the line, when
`open_` tells whether the cell before the line is `Filled` (a run is then in progress and
has been accounted for). -/
def runsAfter (open_ : Bool) : List Cell → List Nat
  | [] => []
  | Cell.Filled :: rest =>
    if open_ then runsAfter true rest
    else (leadingFilled rest + 1) :: runsAfter true rest
  | _ :: rest => runsAfter false rest

/-- Lengths of the maximal runs of `Filled` cells of a line, in order. -/
def runs (line : List Cell) : List Nat := runsAfter false line

/-- The cell at `(i, j)` as the unchecked `operator()` reads it, `None` where that read is
not defined. -/
def Matrix.cellAt (m : Matrix Cell) (i j : Nat) : Cell :=
  match m.get i j with
  | .ok cell => cell
  | .error _ => Cell.None

/-- Row `i` of a grid, read left to right. -/
def Matrix.rowCells (m : Matrix Cell) (i : Nat) : List Cell :=
  (List.range m.colnum_.toNat).map (fun j => m.cellAt i j)

/-- Column `j` of a grid, read top to bottom. -/
def Matrix.columnCells (m : Matrix Cell) (j : Nat) : List Cell :=
  (List.range m.rownum_.toNat).map (fun i => m.cellAt i j)

/-- The grid `G` is an assignment of `Empty`/`Filled` to the `R x C` cells of the puzzle
whose rows and columns have the run lengths the definitions ask for. -/
def Satisfies (input : ProblemInput) (G : Matrix Cell) : Prop :=
  G.rownum_ = input.rowdef.length ∧ G.colnum_ = input.coldef.length ∧
  G.c.length = input.rowdef.length * input.coldef.length ∧
  (∀ cell ∈ G.c, cell = Cell.Empty ∨ cell = Cell.Filled) ∧
  (∀ i, i < input.rowdef.length →
    input.rowdef[i]? = some ((runs (G.rowCells i)).map Int.ofNat)) ∧
  (∀ j, j < input.coldef.length →
    input.coldef[j]? = some ((runs (G.columnCells j)).map Int.ofNat))

instance (input : ProblemInput) (G : Matrix Cell) : Decidable (Satisfies input G) := by
  unfold Satisfies; infer_instance

/-- The value of the enumerator: `None` is 0, `Empty` is 1, `Filled` is 2. -/
def Cell.rank : Cell → Nat
  | Cell.None => 0
  | Cell.Empty => 1
  | Cell.Filled => 2

/-- Lexicographic `≤` on cell sequences, cells compared by `rank` (so `Empty < Filled`). -/
def lexLe : List Cell → List Cell → Bool
  | [], _ => true
  | _ :: _, [] => false
  | a :: as, b :: bs => decide (a.rank < b.rank) || (decide (a = b) && lexLe as bs)

/-- Some non-empty row definition asks for more cells than a row has, its runs and the
gaps between them counted, or some non-empty column definition for more than a column has. -/
def CapacityExceeded (input : ProblemInput) : Prop :=
  (∃ d ∈ input.rowdef, d ≠ [] ∧ d.sum + ((d.length : Int) - 1) > (input.coldef.length : Int)) ∨
  (∃ d ∈ input.coldef, d ≠ [] ∧ d.sum + ((d.length : Int) - 1) > (input.rowdef.length : Int))

instance (input : ProblemInput) : Decidable (CapacityExceeded input) := by
  unfold CapacityExceeded; infer_instance

/-! ## Notions used in the proofs -/

/-- The cursor over `(R, C)` at scan position `k`. -/
def idxAt (R C k : Nat) : MatrixIndex := ⟨R, C, ((k / C : Nat) : Int), ((k % C : Nat) : Int)⟩

/-- The `n` cells of the storage `g` at offsets `start`, `start + stride`, ... -/
def lineOf (g : List Cell) (start stride n : Nat) : List Cell :=
  (List.range n).map (fun t => g.getD (start + t * stride) Cell.None)

/-- The line check of `doCheck` run over a list of cells instead of an index range. -/
def lineCheck (exact : Bool) : List Cell → List Int → Int → Bool → Except Exn Bool
  | [], curr, num, prev => detail.doCheckEnd exact curr num prev
  | cell :: rest, curr, num, prev =>
    match detail.doCheckCell curr num prev cell with
    | .error e => .error e
    | .ok none => .ok false
    | .ok (some (curr1, num1, prev1)) => lineCheck exact rest curr1 num1 prev1

/-- Both line checks of `detail::check` at scan position `k` pass on the storage `g`. -/
def CheckOK (input : ProblemInput) (g : List Cell) (k : Nat) : Prop :=
  lineCheck (decide (k % input.coldef.length + 1 = input.coldef.length))
      (lineOf g (k / input.coldef.length * input.coldef.length) 1 (k % input.coldef.length + 1))
      (input.rowdef.getD (k / input.coldef.length) []) 0 false = .ok true ∧
  lineCheck (decide (k / input.coldef.length + 1 = input.rowdef.length))
      (lineOf g (k % input.coldef.length) input.coldef.length (k / input.coldef.length + 1))
      (input.coldef.getD (k % input.coldef.length) []) 0 false = .ok true

/-- The storage `h` is a full assignment of decided cells on which `detail::check` passes
at every scan position. -/
def Passes (input : ProblemInput) (h : List Cell) : Prop :=
  h.length = input.rowdef.length * input.coldef.length ∧
  (∀ cell ∈ h, cell ≠ Cell.None) ∧
  ∀ p, p < input.rowdef.length * input.coldef.length → CheckOK input h p

/-- What `detail::solve` does when started at a scan position `k` that has `n` cells from
`k` on, on a storage `g` whose cells before `k` are decided: it returns normally and leaves
the cells before `k` alone; when it returns `true` the grid is decided everywhere, passes
every check from `k` on and is, from `k` on, lexicographically least among the passing
grids that agree with `g` before `k`; when it returns `false` there is no such grid. -/
def SearchSpec (input : ProblemInput) (n : Nat) : Prop :=
  ∀ (k : Nat) (g : List Cell) (fuel : Nat),
    k + n = input.rowdef.length * input.coldef.length →
    g.length = input.rowdef.length * input.coldef.length →
    (∀ p, p < k → g.getD p Cell.None ≠ Cell.None) →
    n + 1 ≤ fuel →
    ∃ (b : Bool) (g1 : List Cell),
      detail.solve input fuel (Matrix.mk g input.rowdef.length input.coldef.length)
          (idxAt input.rowdef.length input.coldef.length k) =
        .ok (b, Matrix.mk g1 input.rowdef.length input.coldef.length) ∧
      g1.length = input.rowdef.length * input.coldef.length ∧
      (∀ p, p < k → g1.getD p Cell.None = g.getD p Cell.None) ∧
      (b = true →
        (∀ p, p < input.rowdef.length * input.coldef.length → g1.getD p Cell.None ≠ Cell.None) ∧
        (∀ p, k ≤ p → p < input.rowdef.length * input.coldef.length → CheckOK input g1 p) ∧
        (∀ h, Passes input h → (∀ p, p < k → h.getD p Cell.None = g.getD p Cell.None) →
          lexLe (g1.drop k) (h.drop k) = true)) ∧
      (b = false →
        ∀ h, Passes input h → ¬ (∀ p, p < k → h.getD p Cell.None = g.getD p Cell.None))

/-- The loop invariant of `doCheck`: outside a run `num` is `0`; inside a run `curr` is not
at `last` and `1 ≤ num ≤ *curr`. -/
def LineInv (curr : List Int) (num : Int) (prev : Bool) : Prop :=
  if prev then ∃ e rest, curr = e :: rest ∧ 1 ≤ num ∧ num ≤ e else num = 0

/-- The run lengths of the cells still to be read, seen from the loop state: inside a run
the first of them continues the `num` cells already counted. -/
def pendingRuns (num : Int) (prev : Bool) (cells : List Cell) : List Int :=
  if prev then (num + leadingFilled cells) :: (runsAfter true cells).map Int.ofNat
  else (runsAfter false cells).map Int.ofNat

/-- The cursor after `k` applications of prefix `operator++`. -/
def MatrixIndex.advanceTimes : Nat → MatrixIndex → MatrixIndex
  | 0, idx => idx
  | k + 1, idx => (advanceTimes k idx).advance

/-- The number of scan positions from the cursor to the end of its extents,
`R * C - (row * C + column)`. -/
def MatrixIndex.remaining (idx : MatrixIndex) : Int :=
  idx.rownum_ * idx.colnum_ - (idx.row_ * idx.colnum_ + idx.col_)

/-- What the claim about the partial check says of a prefix `cells` and a definition `d`:
(a) the prefix has at most `len(d)` runs, (b) each run that an `Empty` cell closes inside the
prefix, that is each run but an open last one, is the entry of `d` at its position, and
(c) when the prefix ends with a `Filled` cell, its last run is at most the entry of `d` at
its position. -/
def PartialMatch (cells : List Cell) (d : List Int) : Prop :=
  ((runs cells).map Int.ofNat).length ≤ d.length ∧
  (∀ i r, ((runs cells).map Int.ofNat)[i]? = some r →
    (i + 1 < ((runs cells).map Int.ofNat).length ∨ cells.getLast? ≠ some Cell.Filled) →
    d[i]? = some r) ∧
  (cells.getLast? = some Cell.Filled →
    ∀ i r, ((runs cells).map Int.ofNat)[i]? = some r →
      i + 1 = ((runs cells).map Int.ofNat).length → ∃ e, d[i]? = some e ∧ r ≤ e)

/-- Whether a run is open after the cells, `prev` telling whether one was open before. -/
def endsRun : Bool → List Cell → Bool
  | prev, [] => prev
  | _, cell :: rest => endsRun (decide (cell = Cell.Filled)) rest

/-- The run lengths `rs` fit the front of the definition: each is the entry at its position,
except that a last run that is still open (`ends`) only has to be at most its entry. -/
def prefixMatch (ends : Bool) : List Int → List Int → Prop
  | [], _ => True
  | _ :: _, [] => False
  | [r], e :: _ => if ends then r ≤ e else r = e
  | r :: r1 :: rs, e :: d => r = e ∧ prefixMatch ends (r1 :: rs) d

/-- The grid `data1` has the extents of `data` and the same storage before offset `off`. -/
def SameBefore (data data1 : Matrix Cell) (off : Int) : Prop :=
  data1.rownum_ = data.rownum_ ∧ data1.colnum_ = data.colnum_ ∧
  data1.c.length = data.c.length ∧
  ∀ p : Nat, (p : Int) < off → data1.c[p]? = data.c[p]?

end yunosolver


namespace yunosolver

/-! ## The line check -/

theorem doCheckLoop_eq_lineCheck (get : Int → Except Exn Cell) (exact : Bool) :
    ∀ (cells : List Cell) (i : Int) (curr : List Int) (num : Int) (prev : Bool),
      (∀ t : Nat, t < cells.length → get (i + t) = .ok (cells.getD t Cell.None)) →
      detail.doCheckLoop get exact cells.length i curr num prev =
        lineCheck exact cells curr num prev := by
  intro cells
  induction cells with
  | nil => intro i curr num prev _; rfl
  | cons cell rest ih =>
    intro i curr num prev h
    have h0 : get i = .ok cell := by simpa using h 0 (by simp)
    have hrest : ∀ t : Nat, t < rest.length → get (i + 1 + t) = .ok (rest.getD t Cell.None) := by
      intro t ht
      have := h (t + 1) (by simpa using ht)
      simpa [add_assoc, add_comm (1 : Int)] using this
    simp only [List.length_cons, detail.doCheckLoop, h0, lineCheck]
    cases hc : detail.doCheckCell curr num prev cell with
    | error e => rfl
    | ok r =>
      cases r with
      | none => rfl
      | some st =>
        obtain ⟨c1, n1, p1⟩ := st
        exact ih (i + 1) c1 n1 p1 hrest

theorem lineCheck_exact (cells : List Cell) :
    ∀ (curr : List Int) (num : Int) (prev : Bool),
      (∀ c ∈ cells, c ≠ Cell.None) → LineInv curr num prev →
      lineCheck true cells curr num prev = .ok (decide (pendingRuns num prev cells = curr)) := by
  induction cells with
  | nil =>
    intro curr num prev _ hinv
    cases prev with
    | true =>
      obtain ⟨e, rest, rfl, h1, h2⟩ := hinv
      by_cases hne : num = e <;> cases rest <;>
        simp [lineCheck, detail.doCheckEnd, detail.deref, pendingRuns, leadingFilled, runsAfter, hne]
    | false =>
      cases curr <;> simp [lineCheck, detail.doCheckEnd, pendingRuns, runsAfter]
  | cons cell rest ih =>
    intro curr num prev hcells hinv
    have hrest : ∀ c ∈ rest, c ≠ Cell.None := fun c hc => hcells c (List.mem_cons_of_mem _ hc)
    have hcell : cell ≠ Cell.None := hcells cell (List.mem_cons_self _ _)
    cases cell with
    | None => exact absurd rfl hcell
    | Empty =>
      cases prev with
      | true =>
        obtain ⟨e, tl, rfl, h1, h2⟩ := hinv
        by_cases hne : num = e
        · subst hne
          have := ih tl 0 false hrest (by simp [LineInv])
          simp [lineCheck, detail.doCheckCell, detail.deref, this, pendingRuns, leadingFilled,
            runsAfter]
        · simp [lineCheck, detail.doCheckCell, detail.deref, pendingRuns, leadingFilled,
            runsAfter, hne]
      | false =>
        have := ih curr num false hrest hinv
        simp [lineCheck, detail.doCheckCell, this, pendingRuns, runsAfter]
    | Filled =>
      cases prev with
      | true =>
        obtain ⟨e, tl, rfl, h1, h2⟩ := hinv
        by_cases hgt : num + 1 > e
        · have hne : ¬ (num + (↑(leadingFilled rest) + 1) = e) := by
            have h2 : (0 : Int) ≤ (leadingFilled rest : Int) := Int.ofNat_nonneg _
            omega
          simp [lineCheck, detail.doCheckCell, detail.deref, pendingRuns, leadingFilled,
            runsAfter, hgt, hne]
        · have := ih (e :: tl) (num + 1) true hrest
            (by simp only [LineInv, if_true]; exact ⟨e, tl, rfl, by omega, by omega⟩)
          simp [lineCheck, detail.doCheckCell, detail.deref, pendingRuns, leadingFilled,
            runsAfter, hgt, this, add_assoc, add_comm (1 : Int)]
      | false =>
        have hnum : num = 0 := by simpa [LineInv] using hinv
        subst hnum
        cases curr with
        | nil =>
          simp [lineCheck, detail.doCheckCell, pendingRuns, runsAfter]
        | cons e tl =>
          by_cases hgt : e < 1
          · have hne : ¬ ((↑(leadingFilled rest) : Int) + 1 = e) := by
              have h2 : (0 : Int) ≤ (leadingFilled rest : Int) := Int.ofNat_nonneg _
              omega
            simp [lineCheck, detail.doCheckCell, detail.deref, pendingRuns,
              runsAfter, hgt, hne]
          · have := ih (e :: tl) 1 true hrest
              (by simp only [LineInv, if_true]; exact ⟨e, tl, rfl, by omega, by omega⟩)
            simp [lineCheck, detail.doCheckCell, detail.deref, pendingRuns,
              runsAfter, hgt, this, add_comm (1 : Int)]

theorem lineCheck_returns (exact : Bool) (cells : List Cell) :
    ∀ (curr : List Int) (num : Int) (prev : Bool),
      (∀ c ∈ cells, c ≠ Cell.None) → LineInv curr num prev →
      ∃ b, lineCheck exact cells curr num prev = .ok b := by
  induction cells with
  | nil =>
    intro curr num prev _ hinv
    cases exact
    · exact ⟨true, by simp [lineCheck, detail.doCheckEnd]⟩
    · cases prev with
      | true =>
        obtain ⟨e, rest, rfl, -, -⟩ := hinv
        simp only [lineCheck, detail.doCheckEnd, detail.deref, if_true]
        split_ifs <;> exact ⟨_, rfl⟩
      | false =>
        simp only [lineCheck, detail.doCheckEnd, if_true]
        split_ifs <;> first | exact ⟨_, rfl⟩ | simp_all
  | cons cell rest ih =>
    intro curr num prev hcells hinv
    have hrest : ∀ c ∈ rest, c ≠ Cell.None := fun c hc => hcells c (List.mem_cons_of_mem _ hc)
    have hcell : cell ≠ Cell.None := hcells cell (List.mem_cons_self _ _)
    cases cell with
    | None => exact absurd rfl hcell
    | Empty =>
      cases prev with
      | true =>
        obtain ⟨e, tl, rfl, h1, h2⟩ := hinv
        by_cases hne : num = e
        · obtain ⟨b, hb⟩ := ih tl 0 false hrest (by simp [LineInv])
          exact ⟨b, by simp [lineCheck, detail.doCheckCell, detail.deref, hne, hb]⟩
        · exact ⟨false, by simp [lineCheck, detail.doCheckCell, detail.deref, hne]⟩
      | false =>
        obtain ⟨b, hb⟩ := ih curr num false hrest hinv
        exact ⟨b, by simp [lineCheck, detail.doCheckCell, hb]⟩
    | Filled =>
      cases prev with
      | true =>
        obtain ⟨e, tl, rfl, h1, h2⟩ := hinv
        by_cases hgt : e < num + 1
        · exact ⟨false, by simp [lineCheck, detail.doCheckCell, detail.deref, hgt]⟩
        · obtain ⟨b, hb⟩ := ih (e :: tl) (num + 1) true hrest
            (by simp only [LineInv, if_true]; exact ⟨e, tl, rfl, by omega, by omega⟩)
          exact ⟨b, by simp [lineCheck, detail.doCheckCell, detail.deref, hgt, hb]⟩
      | false =>
        have hnum : num = 0 := by simpa [LineInv] using hinv
        subst hnum
        cases curr with
        | nil => exact ⟨false, by simp [lineCheck, detail.doCheckCell]⟩
        | cons e tl =>
          by_cases hgt : e < 1
          · exact ⟨false, by simp [lineCheck, detail.doCheckCell, detail.deref, hgt]⟩
          · obtain ⟨b, hb⟩ := ih (e :: tl) 1 true hrest
              (by simp only [LineInv, if_true]; exact ⟨e, tl, rfl, by omega, by omega⟩)
            exact ⟨b, by simp [lineCheck, detail.doCheckCell, detail.deref, hgt, hb]⟩

/-- A partial check that fails has failed inside the loop, and the exact check of any longer
line fails at the same cell. -/
theorem lineCheck_false_append (more : List Cell) (cells : List Cell) :
    ∀ (curr : List Int) (num : Int) (prev : Bool),
      lineCheck false cells curr num prev = .ok false →
      lineCheck true (cells ++ more) curr num prev = .ok false := by
  induction cells with
  | nil =>
    intro curr num prev h
    simp [lineCheck, detail.doCheckEnd] at h
  | cons cell rest ih =>
    intro curr num prev h
    simp only [lineCheck, List.cons_append] at h ⊢
    cases hc : detail.doCheckCell curr num prev cell with
    | error e => simp [hc] at h
    | ok r =>
      cases r with
      | none => rfl
      | some st =>
        obtain ⟨c1, n1, p1⟩ := st
        simp only [hc] at h
        exact ih c1 n1 p1 h

theorem lineInv_start (d : List Int) : LineInv d 0 false := by simp [LineInv]

/-- The exact check of a whole line accepts exactly the lines whose runs are the definition. -/
theorem lineCheck_exact_iff (cells : List Cell) (d : List Int)
    (hcells : ∀ c ∈ cells, c ≠ Cell.None) :
    lineCheck true cells d 0 false = .ok true ↔ (runs cells).map Int.ofNat = d := by
  rw [lineCheck_exact cells d 0 false hcells (lineInv_start d)]
  simp [pendingRuns, runs]

/-- The partial check accepts every prefix of a line whose runs are the definition. -/
theorem lineCheck_prefix_of_runs (cells more : List Cell) (d : List Int)
    (hcells : ∀ c ∈ cells ++ more, c ≠ Cell.None)
    (hruns : (runs (cells ++ more)).map Int.ofNat = d) :
    lineCheck false cells d 0 false = .ok true := by
  have hpre : ∀ c ∈ cells, c ≠ Cell.None := fun c hc => hcells c (List.mem_append_left _ hc)
  obtain ⟨b, hb⟩ := lineCheck_returns false cells d 0 false hpre (lineInv_start d)
  cases b with
  | true => exact hb
  | false =>
    have h1 := lineCheck_false_append more cells d 0 false hb
    have h2 := (lineCheck_exact_iff (cells ++ more) d hcells).mpr hruns
    rw [h1] at h2
    exact absurd h2 (by simp)

/-! ## The cursor and the storage -/

theorem idxAt_advance (R C k : Nat) (hC : 1 ≤ C) :
    (idxAt R C k).advance = idxAt R C (k + 1) := by
  have hdm := Nat.div_add_mod k C
  have hlt := Nat.mod_lt k hC
  by_cases h : k % C + 1 = C
  · have hq : (k + 1) / C = k / C + 1 ∧ (k + 1) % C = 0 := by
      rw [Nat.div_mod_unique hC]
      refine ⟨?_, hC⟩
      rw [Nat.mul_succ]; omega
    have h' : (k : Int) % (C : Int) + 1 = (C : Int) := by exact_mod_cast h
    simp [MatrixIndex.advance, idxAt, hq.1, hq.2, h']
  · have hq : (k + 1) / C = k / C ∧ (k + 1) % C = k % C + 1 := by
      rw [Nat.div_mod_unique hC]
      refine ⟨by omega, by omega⟩
    have h' : ¬ ((k : Int) % (C : Int) + 1 = (C : Int)) := by
      intro hc; exact h (by exact_mod_cast hc)
    simp [MatrixIndex.advance, idxAt, hq.1, hq.2, h']

theorem idxAt_is_end (R C k : Nat) (hC : 1 ≤ C) (hk : k ≤ R * C) :
    (idxAt R C k).is_end = decide (k = R * C) := by
  have hdm := Nat.div_add_mod k C
  have hlt := Nat.mod_lt k hC
  by_cases h : k = R * C
  · subst h
    simp [MatrixIndex.is_end, idxAt, Nat.mul_div_cancel _ hC]
  · have hlt2 : k / C < R := by
      rw [Nat.div_lt_iff_lt_mul hC]; omega
    have : ¬ ((k : Int) / (C : Int) = (R : Int)) := by
      intro hc; have : k / C = R := by exact_mod_cast hc
      omega
    simp [MatrixIndex.is_end, idxAt, h, this]

theorem offset_idxAt (C k : Nat) :
    (((k / C : Nat) : Int) * (C : Int) + ((k % C : Nat) : Int)) = (k : Int) := by
  have hdm := Nat.div_add_mod k C
  have : (k / C) * C + k % C = k := by rw [Nat.mul_comm]; exact hdm
  exact_mod_cast this

theorem vecAt_natCast {α : Type} (v : List α) (i : Nat) (x : α) (h : v[i]? = some x) :
    vecAt v (i : Int) = .ok x := by
  simp [vecAt, h]

theorem setIdx_idxAt (g : List Cell) (R C k : Nat) (v : Cell) (hk : k < g.length) :
    (Matrix.mk g R C).setIdx (idxAt R C k) v = .ok (Matrix.mk (g.set k v) R C) := by
  have hoff := offset_idxAt C k
  have hnn : ¬ ((k : Int) < 0) := by omega
  simp only [Matrix.setIdx, Matrix.set, idxAt, hoff, vecSet]
  simp [hk, hnn]

theorem get_natCast (g : List Cell) (R C i j : Nat) (h : i * C + j < g.length) :
    (Matrix.mk g R C).get i j = .ok (g.getD (i * C + j) Cell.None) := by
  have : ((i : Int) * (C : Int) + (j : Int)) = ((i * C + j : Nat) : Int) := by push_cast; ring
  simp only [Matrix.get, this]
  apply vecAt_natCast
  simp [List.getD_eq_getElem?_getD, List.getElem?_eq_getElem h]

theorem lineOf_length (g : List Cell) (start stride n : Nat) :
    (lineOf g start stride n).length = n := by
  simp [lineOf]

theorem lineOf_getD (g : List Cell) (start stride n t : Nat) (ht : t < n) :
    (lineOf g start stride n).getD t Cell.None = g.getD (start + t * stride) Cell.None := by
  simp [lineOf, List.getD_eq_getElem?_getD, List.getElem?_map, List.getElem?_range ht]

theorem mem_lineOf (g : List Cell) (start stride n : Nat) (cell : Cell)
    (h : cell ∈ lineOf g start stride n) :
    ∃ t, t < n ∧ cell = g.getD (start + t * stride) Cell.None := by
  simp only [lineOf, List.mem_map, List.mem_range] at h
  obtain ⟨t, ht, rfl⟩ := h
  exact ⟨t, ht, rfl⟩

theorem doCheck_row (g : List Cell) (R C i c : Nat) (d : List Int) (exact : Bool)
    (h : i * C + c < g.length) :
    detail.doCheck (fun column => (Matrix.mk g R C).get i column) d ((c : Int) + 1) exact =
      lineCheck exact (lineOf g (i * C) 1 (c + 1)) d 0 false := by
  have hn : ((c : Int) + 1).toNat = (lineOf g (i * C) 1 (c + 1)).length := by
    rw [lineOf_length]; omega
  unfold detail.doCheck
  rw [hn]
  apply doCheckLoop_eq_lineCheck
  intro t ht
  rw [lineOf_length] at ht
  rw [lineOf_getD g _ _ _ _ ht, zero_add, Nat.mul_one]
  exact get_natCast g R C i t (by omega)

theorem doCheck_column (g : List Cell) (R C i c : Nat) (d : List Int) (exact : Bool)
    (h : i * C + c < g.length) :
    detail.doCheck (fun row => (Matrix.mk g R C).get row c) d ((i : Int) + 1) exact =
      lineCheck exact (lineOf g c C (i + 1)) d 0 false := by
  have hn : ((i : Int) + 1).toNat = (lineOf g c C (i + 1)).length := by
    rw [lineOf_length]; omega
  unfold detail.doCheck
  rw [hn]
  apply doCheckLoop_eq_lineCheck
  intro t ht
  rw [lineOf_length] at ht
  rw [lineOf_getD g _ _ _ _ ht, zero_add, Nat.add_comm c]
  have hle : t * C ≤ i * C := Nat.mul_le_mul_right C (by omega)
  exact get_natCast g R C t c (by omega)

theorem beq_natCast_succ (a b : Nat) :
    (((a : Nat) : Int) + 1 == ((b : Nat) : Int)) = decide (a + 1 = b) := by
  rw [Bool.eq_iff_iff]
  simp only [beq_iff_eq, decide_eq_true_eq]
  constructor
  · intro h; exact_mod_cast h
  · intro h; exact_mod_cast h

theorem vecAt_getD (v : List (List Int)) (i : Nat) (h : i < v.length) :
    vecAt v (i : Int) = .ok (v.getD i []) := by
  apply vecAt_natCast
  simp [List.getD_eq_getElem?_getD, List.getElem?_eq_getElem h]

/-- On a storage whose cells up to scan position `k` are decided, `detail::check` at `k`
returns normally, and returns `true` exactly when both line checks pass. -/
theorem check_idxAt (input : ProblemInput) (g : List Cell) (k : Nat)
    (hC : 1 ≤ input.coldef.length)
    (hlen : g.length = input.rowdef.length * input.coldef.length)
    (hk : k < input.rowdef.length * input.coldef.length)
    (hdec : ∀ p, p ≤ k → g.getD p Cell.None ≠ Cell.None) :
    ∃ b, detail.check (Matrix.mk g input.rowdef.length input.coldef.length)
        (idxAt input.rowdef.length input.coldef.length k) input = .ok b ∧
      (b = true ↔ CheckOK input g k) := by
  have hdm := Nat.div_add_mod k input.coldef.length
  have hlt := Nat.mod_lt k hC
  have hi : k / input.coldef.length < input.rowdef.length := by
    rw [Nat.div_lt_iff_lt_mul hC]; exact hk
  have hoff : k / input.coldef.length * input.coldef.length + k % input.coldef.length = k := by
    rw [Nat.mul_comm]; exact hdm
  have hrowcells : ∀ cell ∈ lineOf g (k / input.coldef.length * input.coldef.length) 1
      (k % input.coldef.length + 1), cell ≠ Cell.None := by
    intro cell hmem
    obtain ⟨t, ht, rfl⟩ := mem_lineOf _ _ _ _ _ hmem
    exact hdec _ (by omega)
  have hcolcells : ∀ cell ∈ lineOf g (k % input.coldef.length) input.coldef.length
      (k / input.coldef.length + 1), cell ≠ Cell.None := by
    intro cell hmem
    obtain ⟨t, ht, rfl⟩ := mem_lineOf _ _ _ _ _ hmem
    have hle : t * input.coldef.length ≤ k / input.coldef.length * input.coldef.length :=
      Nat.mul_le_mul_right _ (by omega)
    exact hdec _ (by omega)
  obtain ⟨b1, hb1⟩ := lineCheck_returns
    (decide (k % input.coldef.length + 1 = input.coldef.length)) _
    (input.rowdef.getD (k / input.coldef.length) []) 0 false hrowcells (lineInv_start _)
  obtain ⟨b2, hb2⟩ := lineCheck_returns
    (decide (k / input.coldef.length + 1 = input.rowdef.length)) _
    (input.coldef.getD (k % input.coldef.length) []) 0 false hcolcells (lineInv_start _)
  have hrow := doCheck_row g input.rowdef.length input.coldef.length (k / input.coldef.length)
    (k % input.coldef.length) (input.rowdef.getD (k / input.coldef.length) [])
    (decide (k % input.coldef.length + 1 = input.coldef.length)) (by omega)
  have hcol := doCheck_column g input.rowdef.length input.coldef.length
    (k / input.coldef.length) (k % input.coldef.length)
    (input.coldef.getD (k % input.coldef.length) [])
    (decide (k / input.coldef.length + 1 = input.rowdef.length)) (by omega)
  simp only [detail.check, idxAt, Matrix.column_size, Matrix.row_size, beq_natCast_succ,
    vecAt_getD _ _ hi, vecAt_getD _ _ hlt, hrow, hcol, hb1, hb2, CheckOK]
  cases b1 with
  | false => exact ⟨false, rfl, by simp⟩
  | true => exact ⟨b2, rfl, by simp⟩

theorem lineOf_congr (g h : List Cell) (start stride n : Nat)
    (hgh : ∀ t, t < n → g.getD (start + t * stride) Cell.None =
      h.getD (start + t * stride) Cell.None) :
    lineOf g start stride n = lineOf h start stride n := by
  unfold lineOf
  apply List.map_congr_left
  intro t ht
  exact hgh t (List.mem_range.mp ht)

/-- The checks at scan position `k` read no cell after `k`. -/
theorem CheckOK_congr (input : ProblemInput) (g h : List Cell) (k : Nat)
    (hgh : ∀ p, p ≤ k → g.getD p Cell.None = h.getD p Cell.None) :
    CheckOK input g k ↔ CheckOK input h k := by
  have hdm := Nat.div_add_mod k input.coldef.length
  have hoff : k / input.coldef.length * input.coldef.length + k % input.coldef.length = k := by
    rw [Nat.mul_comm]; exact hdm
  have h1 : lineOf g (k / input.coldef.length * input.coldef.length) 1
      (k % input.coldef.length + 1) =
      lineOf h (k / input.coldef.length * input.coldef.length) 1
      (k % input.coldef.length + 1) :=
    lineOf_congr _ _ _ _ _ (fun t ht => hgh _ (by omega))
  have h2 : lineOf g (k % input.coldef.length) input.coldef.length
      (k / input.coldef.length + 1) =
      lineOf h (k % input.coldef.length) input.coldef.length
      (k / input.coldef.length + 1) := by
    apply lineOf_congr
    intro t ht
    have hle : t * input.coldef.length ≤ k / input.coldef.length * input.coldef.length :=
      Nat.mul_le_mul_right _ (by omega)
    exact hgh _ (by omega)
  unfold CheckOK
  rw [h1, h2]

theorem getD_set_self (g : List Cell) (k : Nat) (v : Cell) (hk : k < g.length) :
    (g.set k v).getD k Cell.None = v := by
  simp [List.getD_eq_getElem?_getD, hk]

theorem getD_set_ne (g : List Cell) (k p : Nat) (v : Cell) (hp : p ≠ k) :
    (g.set k v).getD p Cell.None = g.getD p Cell.None := by
  simp [List.getD_eq_getElem?_getD, List.getElem?_set_ne (Ne.symm hp)]

theorem drop_eq_getD_cons (g : List Cell) (k : Nat) (hk : k < g.length) :
    g.drop k = g.getD k Cell.None :: g.drop (k + 1) := by
  rw [List.drop_eq_getElem_cons hk]
  simp [List.getD_eq_getElem?_getD, List.getElem?_eq_getElem hk]

theorem getD_ne_None_of_mem (h : List Cell) (hall : ∀ cell ∈ h, cell ≠ Cell.None)
    (k : Nat) (hk : k < h.length) : h.getD k Cell.None ≠ Cell.None := by
  have : h.getD k Cell.None = h[k] := by
    simp [List.getD_eq_getElem?_getD, List.getElem?_eq_getElem hk]
  rw [this]
  exact hall _ (List.getElem_mem hk)

/-! ## The search -/

/-- One round of the loop of `detail::solve` at scan position `k`, given what the recursive
call does at `k + 1`. -/
theorem solveTry_spec (input : ProblemInput) (hC : 1 ≤ input.coldef.length) (n : Nat)
    (ih : SearchSpec input n) (k : Nat) (g : List Cell) (f : Nat) (v : Cell)
    (hv : v ≠ Cell.None)
    (hk : k + (n + 1) = input.rowdef.length * input.coldef.length)
    (hlen : g.length = input.rowdef.length * input.coldef.length)
    (hdec : ∀ p, p < k → g.getD p Cell.None ≠ Cell.None)
    (hf : n + 1 ≤ f) :
    ∃ (b : Bool) (g1 : List Cell),
      detail.solveTry (detail.solve input f)
          (Matrix.mk g input.rowdef.length input.coldef.length)
          (idxAt input.rowdef.length input.coldef.length k) input v =
        .ok (b, Matrix.mk g1 input.rowdef.length input.coldef.length) ∧
      g1.length = input.rowdef.length * input.coldef.length ∧
      (∀ p, p < k → g1.getD p Cell.None = g.getD p Cell.None) ∧
      (b = true →
        g1.getD k Cell.None = v ∧
        (∀ p, p < input.rowdef.length * input.coldef.length → g1.getD p Cell.None ≠ Cell.None) ∧
        (∀ p, k ≤ p → p < input.rowdef.length * input.coldef.length → CheckOK input g1 p) ∧
        (∀ h, Passes input h → (∀ p, p < k → h.getD p Cell.None = g.getD p Cell.None) →
          h.getD k Cell.None = v → lexLe (g1.drop (k + 1)) (h.drop (k + 1)) = true)) ∧
      (b = false →
        ∀ h, Passes input h → (∀ p, p < k → h.getD p Cell.None = g.getD p Cell.None) →
          h.getD k Cell.None ≠ v) := by
  have hkl : k < g.length := by omega
  have hlen1 : (g.set k v).length = input.rowdef.length * input.coldef.length := by
    simpa using hlen
  have hdec1 : ∀ p, p ≤ k → (g.set k v).getD p Cell.None ≠ Cell.None := by
    intro p hp
    by_cases hpk : p = k
    · subst hpk; rw [getD_set_self g p v hkl]; exact hv
    · rw [getD_set_ne g k p v hpk]; exact hdec p (by omega)
  have hagree1 : ∀ h : List Cell, (∀ p, p < k → h.getD p Cell.None = g.getD p Cell.None) →
      h.getD k Cell.None = v → ∀ p, p ≤ k → h.getD p Cell.None = (g.set k v).getD p Cell.None := by
    intro h hh hhk p hp
    by_cases hpk : p = k
    · subst hpk; rw [getD_set_self g p v hkl]; exact hhk
    · rw [getD_set_ne g k p v hpk]; exact hh p (by omega)
  obtain ⟨b1, hb1, hb1iff⟩ := check_idxAt input (g.set k v) k hC hlen1 (by omega) hdec1
  simp only [detail.solveTry, setIdx_idxAt g _ _ k v hkl, hb1]
  cases b1 with
  | false =>
    refine ⟨false, g.set k v, rfl, hlen1, ?_, by simp, ?_⟩
    · intro p hp; exact getD_set_ne g k p v (by omega)
    · intro _ h hpass hh hhk
      have hck : CheckOK input h k := hpass.2.2 k (by omega)
      have := (CheckOK_congr input h (g.set k v) k (hagree1 h hh hhk)).mp hck
      exact absurd (hb1iff.mpr this) (by simp)
  | true =>
    have hck1 : CheckOK input (g.set k v) k := hb1iff.mp rfl
    obtain ⟨b, g1, hsolve, hlen2, hsame, htrue, hfalse⟩ :=
      ih (k + 1) (g.set k v) f (by omega) hlen1 (fun p hp => hdec1 p (by omega)) hf
    simp only [idxAt_advance _ _ k hC, hsolve]
    refine ⟨b, g1, rfl, hlen2, ?_, ?_, ?_⟩
    · intro p hp
      rw [hsame p (by omega)]; exact getD_set_ne g k p v (by omega)
    · intro hb
      obtain ⟨hall, hchecks, hlex⟩ := htrue hb
      refine ⟨?_, hall, ?_, ?_⟩
      · rw [hsame k (by omega)]; exact getD_set_self g k v hkl
      · intro p hkp hp
        by_cases hpk : p = k
        · subst hpk
          exact (CheckOK_congr input g1 (g.set p v) p (fun q hq => hsame q (by omega))).mpr hck1
        · exact hchecks p (by omega) hp
      · intro h hpass hh hhk
        exact hlex h hpass (fun p hp => hagree1 h hh hhk p (by omega))
    · intro hb h hpass hh hhk
      exact hfalse hb h hpass (fun p hp => hagree1 h hh hhk p (by omega))

theorem cell_cases (v : Cell) (hv : v ≠ Cell.None) : v = Cell.Empty ∨ v = Cell.Filled := by
  cases v
  · exact absurd rfl hv
  · exact Or.inl rfl
  · exact Or.inr rfl

theorem searchSpec (input : ProblemInput) (hC : 1 ≤ input.coldef.length) :
    ∀ n, SearchSpec input n := by
  intro n
  induction n with
  | zero =>
    intro k g fuel hk hlen hdec hfuel
    obtain ⟨f, rfl⟩ : ∃ f, fuel = f + 1 := ⟨fuel - 1, by omega⟩
    have hkeq : k = input.rowdef.length * input.coldef.length := by omega
    have hend := idxAt_is_end input.rowdef.length input.coldef.length k hC (by omega)
    refine ⟨true, g, ?_, hlen, fun p _ => rfl, ?_, by simp⟩
    · rw [decide_eq_true hkeq] at hend
      simp only [detail.solve, hend, if_true]
    · intro _
      refine ⟨fun p hp => hdec p (by omega), fun p h1 h2 => absurd h2 (by omega), ?_⟩
      intro h _ _
      have : g.drop k = [] := List.drop_eq_nil_of_le (by omega)
      rw [this]; rfl
  | succ n ih =>
    intro k g fuel hk hlen hdec hfuel
    obtain ⟨f, rfl⟩ : ∃ f, fuel = f + 1 := ⟨fuel - 1, by omega⟩
    have hend := idxAt_is_end input.rowdef.length input.coldef.length k hC (by omega)
    have hkne : ¬ (k = input.rowdef.length * input.coldef.length) := by omega
    obtain ⟨bE, gE, hE, hlenE, hsameE, htrueE, hfalseE⟩ :=
      solveTry_spec input hC n ih k g f Cell.Empty (by simp) hk hlen hdec (by omega)
    have hdecE : ∀ p, p < k → gE.getD p Cell.None ≠ Cell.None := by
      intro p hp; rw [hsameE p hp]; exact hdec p hp
    obtain ⟨bF, gF, hF, hlenF, hsameF, htrueF, hfalseF⟩ :=
      solveTry_spec input hC n ih k gE f Cell.Filled (by simp) hk hlenE hdecE (by omega)
    have hhk : ∀ h : List Cell, Passes input h →
        h.getD k Cell.None = Cell.Empty ∨ h.getD k Cell.None = Cell.Filled := by
      intro h hpass
      exact cell_cases _ (getD_ne_None_of_mem h hpass.2.1 k (by rw [hpass.1]; omega))
    simp only [detail.solve, hend, hkne, decide_False, hE]
    cases bE with
    | true =>
      obtain ⟨hkE, hallE, hchecksE, hlexE⟩ := htrueE rfl
      refine ⟨true, gE, rfl, hlenE, hsameE, ?_, by simp⟩
      intro _
      refine ⟨hallE, hchecksE, ?_⟩
      intro h hpass hh
      rw [drop_eq_getD_cons gE k (by omega), drop_eq_getD_cons h k (by rw [hpass.1]; omega), hkE]
      rcases hhk h hpass with hc | hc
      · rw [hc]
        simp [lexLe, hlexE h hpass hh hc]
      · rw [hc]
        simp [lexLe, Cell.rank]
    | false =>
      simp only [hF]
      have hfE := hfalseE rfl
      cases bF with
      | true =>
        obtain ⟨hkF, hallF, hchecksF, hlexF⟩ := htrueF rfl
        refine ⟨true, gF, rfl, hlenF, ?_, ?_, by simp⟩
        · intro p hp; rw [hsameF p hp, hsameE p hp]
        · intro _
          refine ⟨hallF, hchecksF, ?_⟩
          intro h hpass hh
          have hhE : ∀ p, p < k → h.getD p Cell.None = gE.getD p Cell.None := by
            intro p hp; rw [hh p hp, hsameE p hp]
          rw [drop_eq_getD_cons gF k (by omega), drop_eq_getD_cons h k (by rw [hpass.1]; omega),
            hkF]
          rcases hhk h hpass with hc | hc
          · exact absurd hc (hfE h hpass hh)
          · rw [hc]
            simp [lexLe, hlexF h hpass hhE hc]
      | false =>
        have hfF := hfalseF rfl
        refine ⟨false, gF, rfl, hlenF, ?_, by simp, ?_⟩
        · intro p hp; rw [hsameF p hp, hsameE p hp]
        · intro _ h hpass hh
          have hhE : ∀ p, p < k → h.getD p Cell.None = gE.getD p Cell.None := by
            intro p hp; rw [hh p hp, hsameE p hp]
          rcases hhk h hpass with hc | hc
          · exact hfE h hpass hh hc
          · exact hfF h hpass hhE hc

/-! ## Passing every check and having the asked run lengths -/

theorem cellAt_mk (g : List Cell) (R C i j : Nat) :
    (Matrix.mk g R C).cellAt i j = g.getD (i * C + j) Cell.None := by
  by_cases h : i * C + j < g.length
  · simp [Matrix.cellAt, get_natCast g R C i j h]
  · have hoff : ((i : Int) * (C : Int) + (j : Int)) = ((i * C + j : Nat) : Int) := by
      push_cast; ring
    have hnone : g[i * C + j]? = none := List.getElem?_eq_none (by omega)
    have hnn : ¬ (((i * C + j : Nat) : Int) < 0) := by omega
    simp only [Matrix.cellAt, Matrix.get, hoff, vecAt, hnn, if_false, Int.toNat_ofNat, hnone]
    simp [List.getD_eq_getElem?_getD, hnone]

theorem rowCells_mk (g : List Cell) (R C i : Nat) :
    (Matrix.mk g R C).rowCells i = lineOf g (i * C) 1 C := by
  simp [Matrix.rowCells, lineOf, cellAt_mk]

theorem columnCells_mk (g : List Cell) (R C j : Nat) :
    (Matrix.mk g R C).columnCells j = lineOf g j C R := by
  simp [Matrix.columnCells, lineOf, cellAt_mk, Nat.add_comm]

theorem lineOf_take (g : List Cell) (start stride n m : Nat) (h : n ≤ m) :
    (lineOf g start stride m).take n = lineOf g start stride n := by
  simp [lineOf, ← List.map_take, List.take_range, Nat.min_eq_left h]

theorem mem_lineOf_ne_None (g : List Cell) (hall : ∀ cell ∈ g, cell ≠ Cell.None)
    (start stride n : Nat) (hin : ∀ t, t < n → start + t * stride < g.length) :
    ∀ cell ∈ lineOf g start stride n, cell ≠ Cell.None := by
  intro cell hmem
  obtain ⟨t, ht, rfl⟩ := mem_lineOf _ _ _ _ _ hmem
  exact getD_ne_None_of_mem g hall _ (hin t ht)

/-- A line with the asked run lengths passes the check of each of its prefixes, the exact
one being asked at most for the whole line. -/
theorem lineCheck_lineOf (g : List Cell) (start stride m n : Nat) (d : List Int) (flag : Bool)
    (hn : n ≤ m) (hflag : flag = true → n = m)
    (hcells : ∀ cell ∈ lineOf g start stride m, cell ≠ Cell.None)
    (hruns : (runs (lineOf g start stride m)).map Int.ofNat = d) :
    lineCheck flag (lineOf g start stride n) d 0 false = .ok true := by
  cases flag with
  | true =>
    have : n = m := hflag rfl
    subst this
    exact (lineCheck_exact_iff _ d hcells).mpr hruns
  | false =>
    have hsplit : lineOf g start stride n ++ (lineOf g start stride m).drop n =
        lineOf g start stride m := by
      rw [← lineOf_take g start stride n m hn]; exact List.take_append_drop _ _
    apply lineCheck_prefix_of_runs _ ((lineOf g start stride m).drop n)
    · rw [hsplit]; exact hcells
    · rw [hsplit]; exact hruns

theorem getD_of_getElem? (v : List (List Int)) (i : Nat) (d : List Int) (h : v[i]? = some d) :
    v.getD i [] = d := by
  simp [List.getD_eq_getElem?_getD, h]

theorem getElem?_of_getD (v : List (List Int)) (i : Nat) (d : List Int) (hi : i < v.length)
    (h : v.getD i [] = d) : v[i]? = some d := by
  rw [← h]
  simp [List.getD_eq_getElem?_getD, List.getElem?_eq_getElem hi]

/-- A grid with the asked run lengths passes `detail::check` at every scan position. -/
theorem passes_of_satisfies (input : ProblemInput) (G : Matrix Cell)
    (hC : 1 ≤ input.coldef.length) (hsat : Satisfies input G) :
    G = Matrix.mk G.c input.rowdef.length input.coldef.length ∧ Passes input G.c := by
  obtain ⟨hR, hCol, hlen, hcells, hrows, hcols⟩ := hsat
  have hG : G = Matrix.mk G.c input.rowdef.length input.coldef.length := by
    cases G; simp_all
  have hall : ∀ cell ∈ G.c, cell ≠ Cell.None := by
    intro cell hmem
    rcases hcells cell hmem with h | h <;> simp [h]
  refine ⟨hG, hlen, hall, ?_⟩
  intro p hp
  have hdm := Nat.div_add_mod p input.coldef.length
  have hlt := Nat.mod_lt p hC
  have hi : p / input.coldef.length < input.rowdef.length := by
    rw [Nat.div_lt_iff_lt_mul hC]; exact hp
  have hoff : p / input.coldef.length * input.coldef.length + p % input.coldef.length = p := by
    rw [Nat.mul_comm]; exact hdm
  have hrow := hrows _ hi
  have hcol := hcols _ hlt
  rw [hG, rowCells_mk] at hrow
  rw [hG, columnCells_mk] at hcol
  constructor
  · apply lineCheck_lineOf G.c _ 1 input.coldef.length _ _ _ (by omega) (by simp)
    · apply mem_lineOf_ne_None G.c hall
      intro t ht
      have : (p / input.coldef.length + 1) * input.coldef.length ≤
          input.rowdef.length * input.coldef.length := Nat.mul_le_mul_right _ hi
      rw [Nat.add_mul] at this
      omega
    · exact (Option.some.inj ((getElem?_of_getD _ _ _ hi rfl).symm.trans hrow)).symm
  · apply lineCheck_lineOf G.c _ input.coldef.length input.rowdef.length _ _ _ (by omega)
      (by simp)
    · apply mem_lineOf_ne_None G.c hall
      intro t ht
      have : (t + 1) * input.coldef.length ≤
          input.rowdef.length * input.coldef.length := Nat.mul_le_mul_right _ ht
      rw [Nat.add_mul] at this
      omega
    · exact (Option.some.inj ((getElem?_of_getD _ _ _ hlt rfl).symm.trans hcol)).symm

/-- A grid that passes `detail::check` at every scan position has the asked run lengths:
the exact checks at the last cell of each row and of each column say so. -/
theorem satisfies_of_passes (input : ProblemInput) (g : List Cell)
    (hR : 1 ≤ input.rowdef.length) (hC : 1 ≤ input.coldef.length) (hpass : Passes input g) :
    Satisfies input (Matrix.mk g input.rowdef.length input.coldef.length) := by
  obtain ⟨hlen, hall, hchecks⟩ := hpass
  refine ⟨rfl, rfl, hlen, fun cell hmem => cell_cases cell (hall cell hmem), ?_, ?_⟩
  · intro i hi
    have hle : (i + 1) * input.coldef.length ≤ input.rowdef.length * input.coldef.length :=
      Nat.mul_le_mul_right _ hi
    rw [Nat.add_mul] at hle
    have hq : (i * input.coldef.length + (input.coldef.length - 1)) / input.coldef.length = i ∧
        (i * input.coldef.length + (input.coldef.length - 1)) % input.coldef.length =
          input.coldef.length - 1 := by
      rw [Nat.div_mod_unique hC]
      refine ⟨?_, by omega⟩
      rw [Nat.mul_comm input.coldef.length i]; omega
    have hck := (hchecks (i * input.coldef.length + (input.coldef.length - 1)) (by omega)).1
    rw [hq.1, hq.2] at hck
    have hsucc : input.coldef.length - 1 + 1 = input.coldef.length := by omega
    rw [hsucc, decide_eq_true rfl] at hck
    have hcells : ∀ cell ∈ lineOf g (i * input.coldef.length) 1 input.coldef.length,
        cell ≠ Cell.None :=
      mem_lineOf_ne_None g hall _ _ _ (fun t ht => by omega)
    rw [rowCells_mk]
    apply getElem?_of_getD _ _ _ hi
    exact ((lineCheck_exact_iff _ _ hcells).mp hck).symm
  · intro j hj
    have hle : (input.rowdef.length - 1 + 1) * input.coldef.length =
        input.rowdef.length * input.coldef.length := by
      congr 1; omega
    rw [Nat.add_mul] at hle
    have hq : ((input.rowdef.length - 1) * input.coldef.length + j) / input.coldef.length =
          input.rowdef.length - 1 ∧
        ((input.rowdef.length - 1) * input.coldef.length + j) % input.coldef.length = j := by
      rw [Nat.div_mod_unique hC]
      refine ⟨?_, hj⟩
      rw [Nat.mul_comm input.coldef.length (input.rowdef.length - 1)]; omega
    have hck := (hchecks ((input.rowdef.length - 1) * input.coldef.length + j) (by omega)).2
    rw [hq.1, hq.2] at hck
    have hsucc : input.rowdef.length - 1 + 1 = input.rowdef.length := by omega
    rw [hsucc, decide_eq_true rfl] at hck
    have hcells : ∀ cell ∈ lineOf g j input.coldef.length input.rowdef.length,
        cell ≠ Cell.None := by
      apply mem_lineOf_ne_None g hall
      intro t ht
      have : (t + 1) * input.coldef.length ≤
          input.rowdef.length * input.coldef.length := Nat.mul_le_mul_right _ ht
      rw [Nat.add_mul] at this
      omega
    rw [columnCells_mk]
    apply getElem?_of_getD _ _ _ hj
    exact ((lineCheck_exact_iff _ _ hcells).mp hck).symm

/-- What `solve` returns on a puzzle with at least one column: either a grid that passes
every check and is lexicographically least among the grids that do, or no solution when no
grid passes every check. -/
theorem solve_spec (input : ProblemInput) (hC : 1 ≤ input.coldef.length) :
    (∃ g1, solve input = .ok (some (Matrix.mk g1 input.rowdef.length input.coldef.length)) ∧
      Passes input g1 ∧ ∀ h, Passes input h → lexLe g1 h = true) ∨
    (solve input = .ok none ∧ ∀ h, ¬ Passes input h) := by
  have hprod : ¬ ((input.rowdef.length : Int) * (input.coldef.length : Int) < 0) := by
    have : (0 : Int) ≤ ((input.rowdef.length * input.coldef.length : Nat) : Int) :=
      Int.ofNat_nonneg _
    push_cast at this
    omega
  have htoNat : ((input.rowdef.length : Int) * (input.coldef.length : Int)).toNat =
      input.rowdef.length * input.coldef.length := by
    have : ((input.rowdef.length : Int) * (input.coldef.length : Int)) =
        ((input.rowdef.length * input.coldef.length : Nat) : Int) := by push_cast; rfl
    rw [this, Int.toNat_ofNat]
  have hidx : MatrixIndex.ofMatrix (Matrix.mk
      (List.replicate (input.rowdef.length * input.coldef.length) Cell.None)
      (input.rowdef.length : Int) (input.coldef.length : Int)) =
      idxAt input.rowdef.length input.coldef.length 0 := by
    simp [MatrixIndex.ofMatrix, MatrixIndex.ofSizes, Matrix.row_size, Matrix.column_size, idxAt]
  obtain ⟨b, g1, hsolve, hlen1, -, htrue, hfalse⟩ :=
    searchSpec input hC (input.rowdef.length * input.coldef.length) 0
      (List.replicate (input.rowdef.length * input.coldef.length) Cell.None)
      (input.rowdef.length * input.coldef.length + 1) (by omega) (by simp)
      (fun p hp => absurd hp (by omega)) (by omega)
  have hsolve1 : solve input = match (Except.ok (b, Matrix.mk g1 input.rowdef.length
      input.coldef.length) : Except Exn (Bool × Matrix Cell)) with
      | .error e => .error e
      | .ok (true, data1) => .ok (some data1)
      | .ok (false, _) => .ok none := by
    rw [← hsolve, ← hidx]
    simp only [solve, Matrix.sized, hprod, if_false, htoNat]
    rfl
  cases b with
  | true =>
    obtain ⟨hall, hchecks, hlex⟩ := htrue rfl
    refine Or.inl ⟨g1, hsolve1, ⟨hlen1, ?_, fun p hp => hchecks p (by omega) hp⟩, ?_⟩
    · intro cell hmem
      obtain ⟨p, hp, rfl⟩ := List.getElem_of_mem hmem
      have := hall p (by omega)
      simpa [List.getD_eq_getElem?_getD, List.getElem?_eq_getElem hp] using this
    · intro h hpass
      have := hlex h hpass (fun p hp => absurd hp (by omega))
      simpa using this
  | false =>
    refine Or.inr ⟨hsolve1, ?_⟩
    intro h hpass
    exact hfalse rfl h hpass (fun p hp => absurd hp (by omega))

theorem solve_some_passes (input : ProblemInput) (G : Matrix Cell)
    (hC : 1 ≤ input.coldef.length) (hG : solve input = .ok (some G)) :
    G = Matrix.mk G.c input.rowdef.length input.coldef.length ∧ Passes input G.c ∧
      ∀ h, Passes input h → lexLe G.c h = true := by
  rcases solve_spec input hC with ⟨g1, h1, hpass, hlex⟩ | ⟨h1, -⟩
  · rw [h1] at hG
    have : Matrix.mk g1 input.rowdef.length input.coldef.length = G := by
      simpa using hG
    subst this
    exact ⟨rfl, hpass, hlex⟩
  · rw [h1] at hG
    simp at hG

theorem solve_no_rows (input : ProblemInput) (hR : input.rowdef.length = 0) :
    solve input = .ok (some (Matrix.mk [] 0 input.coldef.length)) := by
  simp [solve, Matrix.sized, hR, MatrixIndex.ofMatrix, MatrixIndex.ofSizes, Matrix.row_size,
    Matrix.column_size, detail.solve, MatrixIndex.is_end]

theorem solve_no_columns (input : ProblemInput) (hR : 1 ≤ input.rowdef.length)
    (hC : input.coldef.length = 0) : solve input = .error .undefined := by
  have hne : ¬ ((0 : Int) = (input.rowdef.length : Int)) := by omega
  simp [solve, Matrix.sized, hC, MatrixIndex.ofMatrix, MatrixIndex.ofSizes, Matrix.row_size,
    Matrix.column_size, detail.solve, MatrixIndex.is_end, hne, detail.solveTry, Matrix.setIdx,
    Matrix.set, vecSet]

/-! ## The solver's contract -/

/-- C1. Soundness of `solve`: on a puzzle with at least one row and one column, a returned
grid has the extents of the puzzle, the run lengths of `Filled` cells of each row `i`,
read left to right, are `rowdef[i]`, and those of each column `j`, read top to bottom, are
`coldef[j]`. -/
theorem solve_sound (input : ProblemInput) (G : Matrix Cell)
    (hR : 1 ≤ input.rowdef.length) (hC : 1 ≤ input.coldef.length)
    (hG : solve input = .ok (some G)) :
    G.rownum_ = input.rowdef.length ∧ G.colnum_ = input.coldef.length ∧
    (∀ i, i < input.rowdef.length →
      input.rowdef[i]? = some ((runs (G.rowCells i)).map Int.ofNat)) ∧
    (∀ j, j < input.coldef.length →
      input.coldef[j]? = some ((runs (G.columnCells j)).map Int.ofNat)) := by
  obtain ⟨hshape, hpass, -⟩ := solve_some_passes input G hC hG
  have hsat := satisfies_of_passes input G.c hR hC hpass
  rw [← hshape] at hsat
  exact ⟨hsat.1, hsat.2.1, hsat.2.2.2.2.1, hsat.2.2.2.2.2⟩

theorem solve_sound_witness :
    solve ⟨[[1, 1], [2]], [[1], [1], [2]]⟩ =
        .ok (some ⟨[Cell.Filled, Cell.Empty, Cell.Filled, Cell.Empty, Cell.Filled, Cell.Filled],
          2, 3⟩) ∧
      ([[1], [1], [2]] : List (List Int))[2]? = some ((runs
        ((Matrix.mk [Cell.Filled, Cell.Empty, Cell.Filled, Cell.Empty, Cell.Filled, Cell.Filled]
          2 3).columnCells 2)).map Int.ofNat) :=
  ⟨by rfl,
    (solve_sound ⟨[[1, 1], [2]], [[1], [1], [2]]⟩ _ (by decide) (by decide) (by rfl)).2.2.2 2
      (by decide)⟩

/-- C2. Completeness of `solve`: on a puzzle with at least one row and one column, when
`solve` returns no solution, no assignment of `Empty`/`Filled` to the `R x C` grid has the
asked run lengths in every row and every column. -/
theorem solve_complete (input : ProblemInput)
    (_hR : 1 ≤ input.rowdef.length) (hC : 1 ≤ input.coldef.length)
    (hnone : solve input = .ok none) :
    ∀ G : Matrix Cell, ¬ Satisfies input G := by
  intro G hsat
  rcases solve_spec input hC with ⟨g1, h1, -, -⟩ | ⟨-, hno⟩
  · rw [h1] at hnone
    simp at hnone
  · exact hno G.c (passes_of_satisfies input G hC hsat).2

theorem solve_complete_witness :
    solve ⟨[[1]], [[1], [1]]⟩ = .ok none ∧
      ¬ Satisfies ⟨[[1]], [[1], [1]]⟩ ⟨[Cell.Filled, Cell.Empty], 1, 2⟩ :=
  ⟨by rfl, solve_complete ⟨[[1]], [[1], [1]]⟩ (by decide) (by decide) (by rfl) _⟩

/-- C3. Solution choice: on a puzzle with at least one row and one column, the grid `solve`
returns is lexicographically least, in row-major order with `Empty < Filled`, among the
grids that have the asked run lengths. -/
theorem solve_least (input : ProblemInput) (G G1 : Matrix Cell)
    (_hR : 1 ≤ input.rowdef.length) (hC : 1 ≤ input.coldef.length)
    (hG : solve input = .ok (some G)) (hG1 : Satisfies input G1) :
    lexLe G.c G1.c = true := by
  obtain ⟨-, -, hlex⟩ := solve_some_passes input G hC hG
  exact hlex G1.c (passes_of_satisfies input G1 hC hG1).2

theorem solve_least_witness :
    solve ⟨[[1], [1]], [[1], [1]]⟩ =
        .ok (some ⟨[Cell.Empty, Cell.Filled, Cell.Filled, Cell.Empty], 2, 2⟩) ∧
      Satisfies ⟨[[1], [1]], [[1], [1]]⟩
        ⟨[Cell.Filled, Cell.Empty, Cell.Empty, Cell.Filled], 2, 2⟩ ∧
      lexLe [Cell.Empty, Cell.Filled, Cell.Filled, Cell.Empty]
        [Cell.Filled, Cell.Empty, Cell.Empty, Cell.Filled] = true :=
  ⟨by rfl, by decide,
    solve_least ⟨[[1], [1]], [[1], [1]]⟩ ⟨[Cell.Empty, Cell.Filled, Cell.Filled, Cell.Empty], 2, 2⟩
      ⟨[Cell.Filled, Cell.Empty, Cell.Empty, Cell.Filled], 2, 2⟩ (by decide) (by decide)
      (by rfl) (by decide)⟩

theorem runs_capacity_aux (cells : List Cell) :
    (runsAfter false cells).sum + (runsAfter false cells).length ≤ cells.length + 1 ∧
    leadingFilled cells + (runsAfter true cells).sum + (runsAfter true cells).length ≤
      cells.length := by
  induction cells with
  | nil => simp [runsAfter, leadingFilled]
  | cons cell rest ih =>
    obtain ⟨ihA, ihB⟩ := ih
    cases cell <;> simp [runsAfter, leadingFilled] <;> omega

/-- The runs of a line and the gaps between them fit into the line. -/
theorem runs_capacity (cells : List Cell) :
    (runs cells).sum + (runs cells).length ≤ cells.length + 1 :=
  (runs_capacity_aux cells).1

theorem sum_map_ofNat (l : List Nat) : (l.map Int.ofNat).sum = ((l.sum : Nat) : Int) := by
  induction l with
  | nil => rfl
  | cons a rest ih => simp [ih]

theorem def_fits_line (cells : List Cell) (d : List Int)
    (hd : d = (runs cells).map Int.ofNat) :
    d.sum + ((d.length : Int) - 1) ≤ (cells.length : Int) := by
  subst hd
  have h := runs_capacity cells
  rw [sum_map_ofNat, List.length_map]
  omega

/-- C4, amended. Capacity rule: on a puzzle with at least one row and one column, when some
non-empty row definition has `sum + (count - 1) > C` or some non-empty column definition
has `sum + (count - 1) > R`, `solve` returns no solution. -/
theorem capacity_rule (input : ProblemInput)
    (hR : 1 ≤ input.rowdef.length) (hC : 1 ≤ input.coldef.length)
    (hcap : CapacityExceeded input) : solve input = .ok none := by
  rcases solve_spec input hC with ⟨g1, -, hpass, -⟩ | ⟨h1, -⟩
  · exfalso
    obtain ⟨-, -, -, -, hrows, hcols⟩ := satisfies_of_passes input g1 hR hC hpass
    rcases hcap with ⟨d, hmem, -, hgt⟩ | ⟨d, hmem, -, hgt⟩
    · obtain ⟨i, hi, hget⟩ := List.getElem_of_mem hmem
      have hrow := hrows i hi
      rw [List.getElem?_eq_getElem hi, hget] at hrow
      have hfit := def_fits_line _ d (Option.some.inj hrow)
      rw [rowCells_mk, lineOf_length] at hfit
      omega
    · obtain ⟨j, hj, hget⟩ := List.getElem_of_mem hmem
      have hcol := hcols j hj
      rw [List.getElem?_eq_getElem hj, hget] at hcol
      have hfit := def_fits_line _ d (Option.some.inj hcol)
      rw [columnCells_mk, lineOf_length] at hfit
      omega
  · exact h1

theorem capacity_rule_witness :
    CapacityExceeded ⟨[[1, 1], [1]], [[1], [2]]⟩ ∧
      solve ⟨[[1, 1], [1]], [[1], [2]]⟩ = .ok none :=
  ⟨by decide, capacity_rule ⟨[[1, 1], [1]], [[1], [2]]⟩ (by decide) (by decide) (by decide)⟩

/-- C4 as stated fails on a puzzle without rows: the column definition `[1]` asks for more
cells than a column of height 0 has, and `solve` returns the grid without cells. -/
theorem capacity_rule_no_rows :
    CapacityExceeded ⟨[], [[1]]⟩ ∧ solve ⟨[], [[1]]⟩ = .ok (some ⟨[], 0, 1⟩) ∧
      solve ⟨[], [[1]]⟩ ≠ .ok none :=
  ⟨by decide, by rfl, by
    intro h
    have h2 : solve ⟨[], [[1]]⟩ = .ok (some ⟨[], 0, 1⟩) := by rfl
    rw [h2] at h
    simp at h⟩

/-- C5. No undecided cell is returned: every cell of a grid that `solve` returns is `Empty`
or `Filled`. -/
theorem solve_decided (input : ProblemInput) (G : Matrix Cell)
    (hG : solve input = .ok (some G)) :
    ∀ cell ∈ G.c, cell = Cell.Empty ∨ cell = Cell.Filled := by
  intro cell hmem
  by_cases hC : 1 ≤ input.coldef.length
  · obtain ⟨-, hpass, -⟩ := solve_some_passes input G hC hG
    exact cell_cases cell (hpass.2.1 cell hmem)
  · by_cases hR : input.rowdef.length = 0
    · rw [solve_no_rows input hR] at hG
      have : Matrix.mk [] 0 input.coldef.length = G := by simpa using hG
      subst this
      simp at hmem
    · rw [solve_no_columns input (by omega) (by omega)] at hG
      simp at hG

theorem solve_decided_witness :
    solve ⟨[[1], [1]], [[1], [1]]⟩ =
        .ok (some ⟨[Cell.Empty, Cell.Filled, Cell.Filled, Cell.Empty], 2, 2⟩) ∧
      ∀ cell ∈ [Cell.Empty, Cell.Filled, Cell.Filled, Cell.Empty],
        cell = Cell.Empty ∨ cell = Cell.Filled :=
  ⟨by rfl, solve_decided ⟨[[1], [1]], [[1], [1]]⟩ _ (by rfl)⟩

theorem no_filled_of_runs_nil (cells : List Cell) (h : runs cells = []) :
    ∀ cell ∈ cells, cell ≠ Cell.Filled := by
  unfold runs at h
  induction cells with
  | nil => simp
  | cons c rest ih =>
    cases c with
    | Filled => simp [runsAfter] at h
    | None =>
      simp only [runsAfter] at h
      intro cell hmem
      rcases List.mem_cons.mp hmem with rfl | hm
      · simp
      · exact ih h cell hm
    | Empty =>
      simp only [runsAfter] at h
      intro cell hmem
      rcases List.mem_cons.mp hmem with rfl | hm
      · simp
      · exact ih h cell hm

theorem lineOf_mem (g : List Cell) (start stride n t : Nat) (ht : t < n) :
    g.getD (start + t * stride) Cell.None ∈ lineOf g start stride n := by
  simp only [lineOf, List.mem_map, List.mem_range]
  exact ⟨t, ht, rfl⟩

/-- C6. An empty definition forces an empty line: in a grid that `solve` returns, the cell
at `(i, j)` is `Empty` when `rowdef[i]` is the empty list, and when `coldef[j]` is the empty
list. -/
theorem empty_def_forces_empty (input : ProblemInput) (G : Matrix Cell)
    (hG : solve input = .ok (some G)) (i j : Nat)
    (hi : i < input.rowdef.length) (hj : j < input.coldef.length) :
    (input.rowdef[i]? = some [] → G.get i j = .ok Cell.Empty) ∧
    (input.coldef[j]? = some [] → G.get i j = .ok Cell.Empty) := by
  have hR : 1 ≤ input.rowdef.length := by omega
  have hC : 1 ≤ input.coldef.length := by omega
  obtain ⟨hshape, hpass, -⟩ := solve_some_passes input G hC hG
  obtain ⟨-, -, hlen, -, hrows, hcols⟩ := satisfies_of_passes input G.c hR hC hpass
  have hle : (i + 1) * input.coldef.length ≤ input.rowdef.length * input.coldef.length :=
    Nat.mul_le_mul_right _ hi
  rw [Nat.add_mul] at hle
  have hin : i * input.coldef.length + j < G.c.length := by rw [hlen]; omega
  have hget : G.get i j = .ok (G.c.getD (i * input.coldef.length + j) Cell.None) := by
    rw [hshape]; exact get_natCast G.c _ _ i j hin
  have hdec := getD_ne_None_of_mem G.c hpass.2.1 _ hin
  rw [hget]
  constructor
  · intro hdef
    have hrow := hrows i hi
    rw [hdef, rowCells_mk] at hrow
    have hnil : runs (lineOf G.c (i * input.coldef.length) 1 input.coldef.length) = [] := by
      simpa using (Option.some.inj hrow).symm
    have hmem := lineOf_mem G.c (i * input.coldef.length) 1 input.coldef.length j hj
    rw [Nat.mul_one] at hmem
    have := no_filled_of_runs_nil _ hnil _ hmem
    rcases cell_cases _ hdec with h | h
    · rw [h]
    · exact absurd h this
  · intro hdef
    have hcol := hcols j hj
    rw [hdef, columnCells_mk] at hcol
    have hnil : runs (lineOf G.c j input.coldef.length input.rowdef.length) = [] := by
      simpa using (Option.some.inj hcol).symm
    have hmem := lineOf_mem G.c j input.coldef.length input.rowdef.length i hi
    rw [Nat.add_comm] at hmem
    have := no_filled_of_runs_nil _ hnil _ hmem
    rcases cell_cases _ hdec with h | h
    · rw [h]
    · exact absurd h this

theorem empty_def_forces_empty_witness :
    solve ⟨[[], [1]], [[1], []]⟩ =
        .ok (some ⟨[Cell.Empty, Cell.Empty, Cell.Filled, Cell.Empty], 2, 2⟩) ∧
      (Matrix.mk [Cell.Empty, Cell.Empty, Cell.Filled, Cell.Empty] 2 2).get (0 : Nat) (0 : Nat) =
        .ok Cell.Empty ∧
      (Matrix.mk [Cell.Empty, Cell.Empty, Cell.Filled, Cell.Empty] 2 2).get (1 : Nat) (1 : Nat) =
        .ok Cell.Empty :=
  ⟨by rfl,
    (empty_def_forces_empty ⟨[[], [1]], [[1], []]⟩ _ (by rfl) 0 0 (by decide) (by decide)).1
      (by rfl),
    (empty_def_forces_empty ⟨[[], [1]], [[1], []]⟩ _ (by rfl) 1 1 (by decide) (by decide)).2
      (by rfl)⟩

/-- C7, amended. The example of the specification in its text form: `readOneLine` turns the
line `0` into the empty definition, and on the resulting puzzle, rows `[[1, 1]]` and columns
`[[1], [], [1]]`, `solve` returns the `1 x 3` grid `Filled, Empty, Filled`. -/
theorem spec_example_text_form :
    solve ⟨[[1, 1]].map readOneLineResult, [[1], [0], [1]].map readOneLineResult⟩ =
      .ok (some ⟨[Cell.Filled, Cell.Empty, Cell.Filled], 1, 3⟩) := by
  rfl

/-- C7 as stated fails: on the `ProblemInput` whose middle column definition is the list
`[0]`, `solve` returns no solution. -/
theorem spec_example_literal_zero :
    solve ⟨[[1, 1]], [[1], [0], [1]]⟩ = .ok none := by
  rfl

/-! ## The grid's checked access -/

theorem offset_in_storage (rows cols row col : Int)
    (h0 : 0 ≤ row) (h1 : row < rows) (h2 : 0 ≤ col) (h3 : col < cols) :
    0 ≤ row * cols + col ∧ row * cols + col < rows * cols := by
  have hc : 0 ≤ cols := by omega
  have ha : 0 ≤ row * cols := Int.mul_nonneg h0 hc
  have hb : (row + 1) * cols ≤ rows * cols := Int.mul_le_mul_of_nonneg_right (by omega) hc
  rw [Int.add_mul, Int.one_mul] at hb
  constructor <;> omega

/-- C8. Bounds-checked access: on a grid with extents `(rows, cols)`, `at(row, col)` fails
with the out-of-range error exactly when `row < 0`, `row >= rows`, `col < 0` or
`col >= cols`; otherwise it returns what the unchecked access returns, the element at the
row-major offset `row * cols + col`. -/
theorem at_bounds_checked {T : Type} (m : Matrix T) (hwf : m.WellFormed) (row col : Int) :
    ((m.at_ row col = .error (.range_error "matrix row out of range") ∨
        m.at_ row col = .error (.range_error "matrix column out of range")) ↔
      (row < 0 ∨ row ≥ m.rownum_ ∨ col < 0 ∨ col ≥ m.colnum_)) ∧
    (¬ (row < 0 ∨ row ≥ m.rownum_ ∨ col < 0 ∨ col ≥ m.colnum_) →
      m.at_ row col = m.get row col ∧
      ∃ x, m.c[(row * m.colnum_ + col).toNat]? = some x ∧ m.at_ row col = .ok x) := by
  by_cases hrow : row < 0 ∨ row ≥ m.rownum_
  · have hat : m.at_ row col = .error (.range_error "matrix row out of range") := by
      simp [Matrix.at_, Matrix.bound_check, hrow]
    refine ⟨⟨fun _ => ?_, fun _ => Or.inl hat⟩, fun hn => absurd ?_ hn⟩ <;> omega
  · by_cases hcol : col < 0 ∨ col ≥ m.colnum_
    · have hat : m.at_ row col = .error (.range_error "matrix column out of range") := by
        simp [Matrix.at_, Matrix.bound_check, hrow, hcol]
      refine ⟨⟨fun _ => ?_, fun _ => Or.inr hat⟩, fun hn => absurd ?_ hn⟩ <;> omega
    · have hat : m.at_ row col = m.get row col := by
        simp [Matrix.at_, Matrix.bound_check, hrow, hcol]
      obtain ⟨hlo, hhi⟩ := offset_in_storage m.rownum_ m.colnum_ row col
        (by omega) (by omega) (by omega) (by omega)
      unfold Matrix.WellFormed at hwf
      have hlt : (row * m.colnum_ + col).toNat < m.c.length := by omega
      have hget : m.get row col = .ok (m.c[(row * m.colnum_ + col).toNat]) := by
        have hnn : ¬ (row * m.colnum_ + col < 0) := by omega
        simp [Matrix.get, vecAt, hnn, List.getElem?_eq_getElem hlt]
      refine ⟨⟨fun h => ?_, fun h => absurd h (by omega)⟩,
        fun _ => ⟨hat, m.c[(row * m.colnum_ + col).toNat], List.getElem?_eq_getElem hlt, ?_⟩⟩
      · rw [hat, hget] at h
        simp at h
      · rw [hat, hget]

theorem at_bounds_checked_witness :
    (Matrix.mk [Cell.Empty, Cell.Filled, Cell.Filled, Cell.Empty, Cell.Empty, Cell.Filled]
        2 3).WellFormed ∧
      ((Matrix.mk [Cell.Empty, Cell.Filled, Cell.Filled, Cell.Empty, Cell.Empty, Cell.Filled]
          2 3).at_ 1 2 =
        (Matrix.mk [Cell.Empty, Cell.Filled, Cell.Filled, Cell.Empty, Cell.Empty, Cell.Filled]
          2 3).get 1 2 ∧
      ∃ x, [Cell.Empty, Cell.Filled, Cell.Filled, Cell.Empty, Cell.Empty,
            Cell.Filled][((1 : Int) * 3 + 2).toNat]? = some x ∧
        (Matrix.mk [Cell.Empty, Cell.Filled, Cell.Filled, Cell.Empty, Cell.Empty, Cell.Filled]
          2 3).at_ 1 2 = .ok x) :=
  ⟨by decide,
    (at_bounds_checked
      (Matrix.mk [Cell.Empty, Cell.Filled, Cell.Filled, Cell.Empty, Cell.Empty, Cell.Filled]
        2 3) (by decide) 1 2).2 (by decide)⟩

/-- C9. Cursor-checked access: `at(idx)` compares the extents of the cursor with those of
the grid before it looks at the position; with different extents it fails with the
index-mismatch error whatever the position is, and that error is not the out-of-range error
raised when the extents agree and the position lies outside the grid. -/
theorem at_index_checked {T : Type} (m : Matrix T) (idx : MatrixIndex) :
    (idx.rownum_ ≠ m.row_size ∨ idx.colnum_ ≠ m.column_size →
      m.atIdx idx = .error (.range_error "invalid matrix index")) ∧
    (idx.rownum_ = m.row_size → idx.colnum_ = m.column_size →
      (idx.row_ < 0 ∨ idx.row_ ≥ m.row_size ∨ idx.col_ < 0 ∨ idx.col_ ≥ m.column_size) →
      (m.atIdx idx = .error (.range_error "matrix row out of range") ∨
        m.atIdx idx = .error (.range_error "matrix column out of range"))) ∧
    Exn.range_error "invalid matrix index" ≠ Exn.range_error "matrix row out of range" ∧
    Exn.range_error "invalid matrix index" ≠ Exn.range_error "matrix column out of range" := by
  refine ⟨?_, ?_, by decide, by decide⟩
  · intro h
    by_cases hr : idx.rownum_ = m.row_size
    · have hc : idx.colnum_ ≠ m.column_size := by
        rcases h with h | h
        · exact absurd hr h
        · exact h
      simp [Matrix.atIdx, Matrix.index_check, hr, hc]
    · simp [Matrix.atIdx, Matrix.index_check, hr]
  · intro hr hc hout
    by_cases hrow : idx.row_ < 0 ∨ idx.row_ ≥ m.rownum_
    · left
      simp [Matrix.atIdx, Matrix.index_check, hr, hc, Matrix.bound_check, hrow]
    · right
      have hcol : idx.col_ < 0 ∨ idx.col_ ≥ m.colnum_ := by
        simp only [Matrix.row_size, Matrix.column_size] at hout
        omega
      simp [Matrix.atIdx, Matrix.index_check, hr, hc, Matrix.bound_check, hrow, hcol]

theorem at_index_checked_witness :
    (Matrix.mk [Cell.Empty, Cell.Filled] 1 2).atIdx ⟨3, 2, 7, 7⟩ =
        .error (.range_error "invalid matrix index") ∧
      ((Matrix.mk [Cell.Empty, Cell.Filled] 1 2).atIdx ⟨1, 2, 0, 2⟩ =
          .error (.range_error "matrix row out of range") ∨
        (Matrix.mk [Cell.Empty, Cell.Filled] 1 2).atIdx ⟨1, 2, 0, 2⟩ =
          .error (.range_error "matrix column out of range")) :=
  ⟨(at_index_checked (Matrix.mk [Cell.Empty, Cell.Filled] 1 2) ⟨3, 2, 7, 7⟩).1 (by decide),
    (at_index_checked (Matrix.mk [Cell.Empty, Cell.Filled] 1 2) ⟨1, 2, 0, 2⟩).2.1
      (by decide) (by decide) (by decide)⟩

/-! ## Resizing -/

theorem set_natCast (r : List Cell) (R C i j : Nat) (x : Cell) (h : i * C + j < r.length) :
    (Matrix.mk r R C).set i j x = .ok (Matrix.mk (r.set (i * C + j) x) R C) := by
  have hoff : ((i : Int) * (C : Int) + (j : Int)) = ((i * C + j : Nat) : Int) := by
    push_cast; ring
  have hnn : ¬ (((i * C + j : Nat) : Int) < 0) := by omega
  simp only [Matrix.set, hoff, vecSet, hnn, if_false, Int.toNat_ofNat, h, if_true]

/-- The inner loop of `resize` in row `i`, from column `c0` on for `n` columns: the cells
`(i, c0) .. (i, c0 + n - 1)` of `ret` receive those of the old grid, the others stay. -/
theorem resizeCols_spec (g : List Cell) (R C R1 C1 i : Nat)
    (hlen : g.length = R * C) (hi : i < R) (hi1 : i < R1) :
    ∀ (n c0 : Nat) (r : List Cell), r.length = R1 * C1 → c0 + n ≤ C → c0 + n ≤ C1 →
      ∃ r1, (Matrix.mk g R C).resizeCols i n c0 (Matrix.mk r R1 C1) = .ok (Matrix.mk r1 R1 C1) ∧
        r1.length = R1 * C1 ∧
        ∀ p, r1.getD p Cell.None =
          if i * C1 + c0 ≤ p ∧ p < i * C1 + c0 + n then g.getD (i * C + (p - i * C1)) Cell.None
          else r.getD p Cell.None := by
  have hrow : (i + 1) * C ≤ R * C := Nat.mul_le_mul_right _ hi
  have hrow1 : (i + 1) * C1 ≤ R1 * C1 := Nat.mul_le_mul_right _ hi1
  rw [Nat.add_mul] at hrow hrow1
  intro n
  induction n with
  | zero =>
    intro c0 r hr _ _
    refine ⟨r, rfl, hr, fun p => ?_⟩
    rw [if_neg (by omega)]
  | succ n ih =>
    intro c0 r hr h1 h2
    have hget := get_natCast g R C i c0 (by omega)
    have hset := set_natCast r R1 C1 i c0 (g.getD (i * C + c0) Cell.None) (by omega)
    obtain ⟨r1, hloop, hlen1, hcells⟩ := ih (c0 + 1)
      (r.set (i * C1 + c0) (g.getD (i * C + c0) Cell.None)) (by simpa using hr)
      (by omega) (by omega)
    refine ⟨r1, ?_, hlen1, fun p => ?_⟩
    · simp only [Matrix.resizeCols, hget, hset]
      have hc : ((c0 : Int) + 1) = ((c0 + 1 : Nat) : Int) := by push_cast; rfl
      rw [hc]; exact hloop
    · rw [hcells p]
      by_cases hp : p = i * C1 + c0
      · subst hp
        rw [if_neg (by omega), if_pos (by omega), getD_set_self _ _ _ (by omega)]
        congr 1; omega
      · rw [getD_set_ne _ _ _ _ hp]
        by_cases hin : i * C1 + (c0 + 1) ≤ p ∧ p < i * C1 + (c0 + 1) + n
        · rw [if_pos hin, if_pos (by omega)]
        · rw [if_neg hin, if_neg (by omega)]

/-- The outer loop of `resize` from row `i0` on for `n` rows, each over `cols` columns. -/
theorem resizeRows_spec (g : List Cell) (R C R1 C1 cols : Nat)
    (hlen : g.length = R * C) (hc : cols ≤ C) (hc1 : cols ≤ C1) :
    ∀ (n i0 : Nat) (r : List Cell), r.length = R1 * C1 → i0 + n ≤ R → i0 + n ≤ R1 →
      ∃ r1, (Matrix.mk g R C).resizeRows cols n i0 (Matrix.mk r R1 C1) =
          .ok (Matrix.mk r1 R1 C1) ∧
        r1.length = R1 * C1 ∧
        ∀ i j, j < C1 → r1.getD (i * C1 + j) Cell.None =
          if i0 ≤ i ∧ i < i0 + n ∧ j < cols then g.getD (i * C + j) Cell.None
          else r.getD (i * C1 + j) Cell.None := by
  intro n
  induction n with
  | zero =>
    intro i0 r hr _ _
    refine ⟨r, rfl, hr, fun i j _ => ?_⟩
    rw [if_neg (by omega)]
  | succ n ih =>
    intro i0 r hr h1 h2
    obtain ⟨r1, hcols, hlen1, hcells1⟩ := resizeCols_spec g R C R1 C1 i0 hlen (by omega)
      (by omega) cols 0 r hr (by omega) (by omega)
    obtain ⟨r2, hrows, hlen2, hcells2⟩ := ih (i0 + 1) r1 hlen1 (by omega) (by omega)
    refine ⟨r2, ?_, hlen2, fun i j hj => ?_⟩
    · have hnn : ¬ ((cols : Int) < 0) := by omega
      have hi : ((i0 : Int) + 1) = ((i0 + 1 : Nat) : Int) := by push_cast; rfl
      have hcols0 : (Matrix.mk g (R : Int) (C : Int)).resizeCols (i0 : Int) cols 0
          (Matrix.mk r R1 C1) = .ok (Matrix.mk r1 R1 C1) := by
        simpa using hcols
      simp only [Matrix.resizeRows, hnn, if_false, Int.toNat_ofNat, hcols0, hi]
      exact hrows
    · rw [hcells2 i j hj, hcells1]
      by_cases hi : i = i0
      · subst hi
        rw [if_neg (by omega)]
        by_cases hjc : j < cols
        · rw [if_pos (by omega), if_pos (by omega)]
          congr 1; omega
        · rw [if_neg (by omega), if_neg (by omega)]
      · have hout : ¬ (i0 * C1 + 0 ≤ i * C1 + j ∧ i * C1 + j < i0 * C1 + 0 + cols) := by
          rcases Nat.lt_or_gt_of_ne hi with hlt | hgt
          · have : (i + 1) * C1 ≤ i0 * C1 := Nat.mul_le_mul_right _ hlt
            rw [Nat.add_mul] at this
            omega
          · have : (i0 + 1) * C1 ≤ i * C1 := Nat.mul_le_mul_right _ hgt
            rw [Nat.add_mul] at this
            omega
        rw [if_neg hout]
        by_cases hin : i0 + 1 ≤ i ∧ i < i0 + 1 + n ∧ j < cols
        · rw [if_pos hin, if_pos (by omega)]
        · rw [if_neg hin, if_neg (by omega)]

/-- The grid that `resize` has built in its local `ret` when it reaches the move
assignment: the new extents, `R1 * C1` cells, the cells of the old grid in the common
top-left part and `None` elsewhere. -/
theorem resizeBody_spec (g : List Cell) (R C R1 C1 : Nat) (hlen : g.length = R * C) :
    ∃ r1, (Matrix.mk g R C).resizeBody R1 C1 = .ok (Matrix.mk r1 R1 C1) ∧
      r1.length = R1 * C1 ∧
      ∀ i j, i < R1 → j < C1 → r1.getD (i * C1 + j) Cell.None =
        if i < R ∧ j < C then g.getD (i * C + j) Cell.None else Cell.None := by
  have hprod : ¬ ((R1 : Int) * (C1 : Int) < 0) := by
    have : (0 : Int) ≤ ((R1 * C1 : Nat) : Int) := Int.ofNat_nonneg _
    push_cast at this
    omega
  have htoNat : ((R1 : Int) * (C1 : Int)).toNat = R1 * C1 := by
    have : ((R1 : Int) * (C1 : Int)) = ((R1 * C1 : Nat) : Int) := by push_cast; rfl
    rw [this, Int.toNat_ofNat]
  have hminR : min (R : Int) (R1 : Int) = ((min R R1 : Nat) : Int) := by omega
  have hminC : min (C : Int) (C1 : Int) = ((min C C1 : Nat) : Int) := by omega
  obtain ⟨r1, hrows, hlen1, hcells⟩ := resizeRows_spec g R C R1 C1 (min C C1) hlen
    (Nat.min_le_left _ _) (Nat.min_le_right _ _) (min R R1) 0
    (List.replicate (R1 * C1) Cell.None) (by simp) (by omega) (by omega)
  refine ⟨r1, ?_, hlen1, fun i j hi hj => ?_⟩
  · have hnn : ¬ (((min R R1 : Nat) : Int) < 0) := by omega
    simp only [Matrix.resizeBody, Matrix.sized, hprod, if_false, htoNat, hminR, hminC, hnn,
      Int.toNat_ofNat]
    simpa using hrows
  · rw [hcells i j hj]
    have hle : (i + 1) * C1 ≤ R1 * C1 := Nat.mul_le_mul_right _ hi
    rw [Nat.add_mul] at hle
    have hdef : (List.replicate (R1 * C1) Cell.None).getD (i * C1 + j) Cell.None =
        Cell.None := by
      simp only [List.getD_eq_getElem?_getD, List.getElem?_replicate]
      split_ifs <;> rfl
    rw [hdef]
    by_cases hin : i < R ∧ j < C
    · rw [if_pos hin, if_pos (by omega)]
    · rw [if_neg hin, if_neg (by omega)]

/-- C10 on the code: `resize` ends with the move assignment, whose body flows off its end
without a `return`, so no call of `resize` returns normally; here on the `1 x 1` grid
holding `Empty`, resized to `2 x 2`. -/
theorem resize_flows_off_end :
    (Matrix.mk [Cell.Empty] 1 1).resizeBody 2 2 =
        .ok ⟨[Cell.Empty, Cell.None, Cell.None, Cell.None], 2, 2⟩ ∧
      (Matrix.mk [Cell.Empty] 1 1).resize 2 2 = .error .undefined := by
  constructor <;> rfl

/-! ## The cursor -/

theorem ofSizes_eq_idxAt (R C : Nat) : MatrixIndex.ofSizes R C = idxAt R C 0 := by
  simp [MatrixIndex.ofSizes, idxAt]

theorem advanceTimes_ofSizes (R C : Nat) (hC : 1 ≤ C) (k : Nat) :
    MatrixIndex.advanceTimes k (MatrixIndex.ofSizes R C) = idxAt R C k := by
  induction k with
  | zero => exact ofSizes_eq_idxAt R C
  | succ k ih => rw [MatrixIndex.advanceTimes, ih, idxAt_advance R C k hC]

theorem scan_position_unique (C r c k : Nat) (hC : 1 ≤ C) (hc : c < C) :
    (k / C = r ∧ k % C = c) ↔ k = r * C + c := by
  rw [Nat.div_mod_unique hC, Nat.mul_comm C r]
  constructor
  · intro h; omega
  · intro h; exact ⟨by omega, hc⟩

theorem scan_position_mono (C k k1 : Nat) (h : k < k1) :
    k / C < k1 / C ∨ (k / C = k1 / C ∧ k % C < k1 % C) := by
  have hle : k / C ≤ k1 / C := Nat.div_le_div_right (Nat.le_of_lt h)
  rcases Nat.lt_or_eq_of_le hle with hlt | heq
  · exact Or.inl hlt
  · right
    refine ⟨heq, ?_⟩
    have h1 := Nat.div_add_mod k C
    have h2 := Nat.div_add_mod k1 C
    rw [heq] at h1
    omega

/-- C11. Row-major traversal: over extents `(R, C)` with `C >= 1`, the cursor reached by `k`
advances from the freshly constructed one, `k <= R * C`, is at `(k div C, k mod C)`; so
each pair `(r, c)` with `r < R`, `c < C` is visited exactly once, at step `r * C + c`, later
steps are at a later row or at the same row and a later column, `is_end()` is false before
step `R * C`, and at step `R * C` the cursor is at `(R, 0)` with `is_end()` true. -/
theorem advance_row_major (R C : Nat) (hC : 1 ≤ C) :
    (∀ k, k ≤ R * C →
      (MatrixIndex.advanceTimes k (MatrixIndex.ofSizes R C)).row_ = ((k / C : Nat) : Int) ∧
      (MatrixIndex.advanceTimes k (MatrixIndex.ofSizes R C)).col_ = ((k % C : Nat) : Int)) ∧
    (∀ r c, r < R → c < C → r * C + c < R * C ∧ ∀ k, k ≤ R * C →
      (((MatrixIndex.advanceTimes k (MatrixIndex.ofSizes R C)).row_ = (r : Int) ∧
        (MatrixIndex.advanceTimes k (MatrixIndex.ofSizes R C)).col_ = (c : Int)) ↔
        k = r * C + c)) ∧
    (∀ k k1, k < k1 → k1 ≤ R * C →
      (MatrixIndex.advanceTimes k (MatrixIndex.ofSizes R C)).row_ <
          (MatrixIndex.advanceTimes k1 (MatrixIndex.ofSizes R C)).row_ ∨
        ((MatrixIndex.advanceTimes k (MatrixIndex.ofSizes R C)).row_ =
            (MatrixIndex.advanceTimes k1 (MatrixIndex.ofSizes R C)).row_ ∧
          (MatrixIndex.advanceTimes k (MatrixIndex.ofSizes R C)).col_ <
            (MatrixIndex.advanceTimes k1 (MatrixIndex.ofSizes R C)).col_)) ∧
    (∀ k, k < R * C →
      (MatrixIndex.advanceTimes k (MatrixIndex.ofSizes R C)).is_end = false) ∧
    (MatrixIndex.advanceTimes (R * C) (MatrixIndex.ofSizes R C)).row_ = (R : Int) ∧
    (MatrixIndex.advanceTimes (R * C) (MatrixIndex.ofSizes R C)).col_ = 0 ∧
    (MatrixIndex.advanceTimes (R * C) (MatrixIndex.ofSizes R C)).is_end = true := by
  refine ⟨?_, ?_, ?_, ?_, ?_, ?_, ?_⟩
  · intro k _
    rw [advanceTimes_ofSizes R C hC k]
    exact ⟨rfl, rfl⟩
  · intro r c hr hc
    have hle : (r + 1) * C ≤ R * C := Nat.mul_le_mul_right _ hr
    rw [Nat.add_mul] at hle
    refine ⟨by omega, ?_⟩
    intro k _
    rw [advanceTimes_ofSizes R C hC k, ← scan_position_unique C r c k hC hc]
    simp only [idxAt]
    constructor
    · rintro ⟨h1, h2⟩; exact ⟨by exact_mod_cast h1, by exact_mod_cast h2⟩
    · rintro ⟨h1, h2⟩; exact ⟨by exact_mod_cast h1, by exact_mod_cast h2⟩
  · intro k k1 hlt _
    rw [advanceTimes_ofSizes R C hC k, advanceTimes_ofSizes R C hC k1]
    simp only [idxAt]
    rcases scan_position_mono C k k1 hlt with h | ⟨h1, h2⟩
    · left; exact_mod_cast h
    · right; exact ⟨by exact_mod_cast h1, by exact_mod_cast h2⟩
  · intro k hk
    rw [advanceTimes_ofSizes R C hC k, idxAt_is_end R C k hC (by omega)]
    exact decide_eq_false (by omega)
  · rw [advanceTimes_ofSizes R C hC]
    simp [idxAt, Nat.mul_div_cancel _ hC]
  · rw [advanceTimes_ofSizes R C hC]
    simp [idxAt]
  · rw [advanceTimes_ofSizes R C hC, idxAt_is_end R C _ hC (Nat.le_refl _)]
    exact decide_eq_true rfl

theorem advance_row_major_witness :
    (MatrixIndex.advanceTimes 4 (MatrixIndex.ofSizes (2 : Nat) (3 : Nat))).row_ =
        ((4 / 3 : Nat) : Int) ∧
      (MatrixIndex.advanceTimes 4 (MatrixIndex.ofSizes (2 : Nat) (3 : Nat))).col_ =
        ((4 % 3 : Nat) : Int) :=
  (advance_row_major 2 3 (by decide)).1 4 (by decide)

/-- C12, amended. Degenerate cursor: for all extents `rows`, `cols >= 0` with `rows == 0`,
the freshly constructed cursor over `(rows, cols)` is immediately terminal. -/
theorem fresh_cursor_terminal (rows cols : Int) (hrows : rows = 0) (_hcols : 0 ≤ cols) :
    (MatrixIndex.ofSizes rows cols).is_end = true := by
  simp [MatrixIndex.ofSizes, MatrixIndex.is_end, hrows]

theorem fresh_cursor_terminal_witness :
    (MatrixIndex.ofSizes 0 3).is_end = true ∧ (MatrixIndex.ofSizes 0 0).is_end = true :=
  ⟨fresh_cursor_terminal 0 3 rfl (by decide), fresh_cursor_terminal 0 0 rfl (by decide)⟩

/-- C12 as stated fails for `cols == 0` with `rows >= 1`: the freshly constructed cursor over
`(1, 0)` is not terminal, `is_end()` comparing the row with `row_size` only. -/
theorem fresh_cursor_no_columns :
    (MatrixIndex.ofSizes 1 0).is_end = false := by
  decide

/-- C18. `advance` and `retreat` are mutually inverse: for a cursor over extents with
`C >= 1` whose column satisfies `0 <= column < C`, `retreat(advance(idx)) = idx`, and when
the cursor is not at `(0, 0)`, `advance(retreat(idx)) = idx`. -/
theorem advance_retreat_inverse (idx : MatrixIndex) (_hC : 1 ≤ idx.colnum_)
    (hlo : 0 ≤ idx.col_) (hhi : idx.col_ < idx.colnum_) :
    idx.advance.retreat = idx ∧
    (¬ (idx.row_ = 0 ∧ idx.col_ = 0) → idx.retreat.advance = idx) := by
  obtain ⟨R, C, row, col⟩ := idx
  simp only at hlo hhi
  constructor
  · by_cases h : col + 1 = C
    · have hcol : C - 1 = col := by omega
      simp [MatrixIndex.advance, MatrixIndex.retreat, h, hcol]
    · have h1 : ¬ (col + 1 = 0) := by omega
      simp [MatrixIndex.advance, MatrixIndex.retreat, h, h1]
  · intro _
    by_cases h : col = 0
    · simp [MatrixIndex.advance, MatrixIndex.retreat, h]
    · have h1 : ¬ (col = C) := by omega
      simp [MatrixIndex.advance, MatrixIndex.retreat, h, h1]

theorem advance_retreat_inverse_witness :
    (MatrixIndex.mk 2 3 0 2).advance.retreat = MatrixIndex.mk 2 3 0 2 ∧
      (MatrixIndex.mk 2 3 1 0).retreat.advance = MatrixIndex.mk 2 3 1 0 :=
  ⟨(advance_retreat_inverse ⟨2, 3, 0, 2⟩ (by decide) (by decide) (by decide)).1,
    (advance_retreat_inverse ⟨2, 3, 1, 0⟩ (by decide) (by decide) (by decide)).2 (by decide)⟩

/-! ## The line check on its own -/

theorem doCheck_eq_lineCheck (get : Int → Except Exn Cell) (cells : List Cell) (d : List Int)
    (exact : Bool) (hget : ∀ t : Nat, t < cells.length → get t = .ok (cells.getD t Cell.None)) :
    detail.doCheck get d cells.length exact = lineCheck exact cells d 0 false := by
  unfold detail.doCheck
  rw [Int.toNat_ofNat]
  apply doCheckLoop_eq_lineCheck
  intro t ht
  rw [zero_add]
  exact hget t ht

theorem doCheck_vecAt (cells : List Cell) (d : List Int) (exact : Bool) :
    detail.doCheck (fun i => vecAt cells i) d cells.length exact =
      lineCheck exact cells d 0 false := by
  apply doCheck_eq_lineCheck
  intro t ht
  apply vecAt_natCast
  simp [List.getD_eq_getElem?_getD, List.getElem?_eq_getElem ht]

theorem ne_None_of_decided (cells : List Cell)
    (h : ∀ cell ∈ cells, cell = Cell.Empty ∨ cell = Cell.Filled) :
    ∀ cell ∈ cells, cell ≠ Cell.None := by
  intro cell hmem
  rcases h cell hmem with h1 | h1 <;> simp [h1]

/-- C13. The exact line check is the reference definition: run over a whole line of
`Empty`/`Filled` cells with `exact = true`, `doCheck` returns, and it returns `true` exactly
when the lengths of the maximal runs of `Filled` cells of the line, in order, are the
definition. -/
theorem exact_check_iff_runs (cells : List Cell) (d : List Int)
    (hcells : ∀ cell ∈ cells, cell = Cell.Empty ∨ cell = Cell.Filled) :
    detail.doCheck (fun i => vecAt cells i) d cells.length true =
      .ok (decide ((runs cells).map Int.ofNat = d)) := by
  rw [doCheck_vecAt,
    lineCheck_exact cells d 0 false (ne_None_of_decided cells hcells) (lineInv_start d)]
  simp [pendingRuns, runs]

theorem exact_check_iff_runs_witness :
    detail.doCheck
        (fun i => vecAt [Cell.Filled, Cell.Filled, Cell.Empty, Cell.Filled] i) [2, 1]
        ([Cell.Filled, Cell.Filled, Cell.Empty, Cell.Filled].length) true =
      .ok (decide ((runs [Cell.Filled, Cell.Filled, Cell.Empty, Cell.Filled]).map Int.ofNat =
        [2, 1])) :=
  exact_check_iff_runs [Cell.Filled, Cell.Filled, Cell.Empty, Cell.Filled] [2, 1] (by decide)

/-- C19. The line check never reads past the end of the definition: when the cells it reads
up to `bound` are `Empty` or `Filled`, `doCheck` returns a boolean for every `bound`, either
value of `exact` and every definition.  A read of `*curr` with `curr == last` is the one
step of the check that has no value here (`deref []`), and it would end the check without a
boolean. -/
theorem doCheck_reads_inside_def (get : Int → Except Exn Cell) (d : List Int) (bound : Int)
    (exact : Bool)
    (hget : ∀ i, 0 ≤ i → i < bound → get i = .ok Cell.Empty ∨ get i = .ok Cell.Filled) :
    ∃ b, detail.doCheck get d bound exact = .ok b := by
  have hcells : ∀ t : Nat, t < bound.toNat →
      ∃ cell, get t = .ok cell ∧ cell ≠ Cell.None := by
    intro t ht
    rcases hget t (by omega) (by omega) with h | h
    · exact ⟨Cell.Empty, h, by simp⟩
    · exact ⟨Cell.Filled, h, by simp⟩
  let cells : List Cell := (List.range bound.toNat).map
    (fun t : Nat => match get (t : Int) with | .ok cell => cell | .error _ => Cell.Empty)
  have hlen : cells.length = bound.toNat := by simp [cells]
  have hloop := doCheckLoop_eq_lineCheck get exact cells 0 d 0 false (by
    intro t ht
    rw [hlen] at ht
    obtain ⟨cell, hc, -⟩ := hcells t ht
    rw [zero_add, hc]
    simp [cells, List.getD_eq_getElem?_getD, List.getElem?_map, List.getElem?_range ht, hc])
  have hne : ∀ cell ∈ cells, cell ≠ Cell.None := by
    intro cell hmem
    simp only [cells, List.mem_map, List.mem_range] at hmem
    obtain ⟨t, ht, rfl⟩ := hmem
    obtain ⟨cell, hc, hcn⟩ := hcells t ht
    rw [hc]; exact hcn
  obtain ⟨b, hb⟩ := lineCheck_returns exact cells d 0 false hne (lineInv_start d)
  refine ⟨b, ?_⟩
  unfold detail.doCheck
  rw [← hlen, hloop, hb]

theorem doCheck_reads_inside_def_witness :
    ∃ b, detail.doCheck (fun i => vecAt [Cell.Filled, Cell.Empty, Cell.Filled] i) [] 3 true =
      .ok b :=
  doCheck_reads_inside_def (fun i => vecAt [Cell.Filled, Cell.Empty, Cell.Filled] i) [] 3 true
    (by
      intro i h0 h3
      have : i = 0 ∨ i = 1 ∨ i = 2 := by omega
      rcases this with h | h | h <;> subst h
      · right; rfl
      · left; rfl
      · right; rfl)

/-! ## The partial line check -/

theorem prefixMatch_head_le (ends : Bool) (r e : Int) (rs d : List Int)
    (h : prefixMatch ends (r :: rs) (e :: d)) : r ≤ e := by
  cases rs with
  | nil =>
    cases ends <;> simp [prefixMatch] at h <;> omega
  | cons r1 rs => simp only [prefixMatch] at h; omega

theorem prefixMatch_cons_closed (ends : Bool) (r e : Int) (rs d : List Int)
    (hrs : rs = [] → ends = false) :
    prefixMatch ends (r :: rs) (e :: d) ↔ r = e ∧ prefixMatch ends rs d := by
  cases rs with
  | nil => simp [prefixMatch, hrs rfl]
  | cons r1 rs => simp only [prefixMatch]

theorem prefixMatch_cons_open (ends : Bool) (r e : Int) (rs d : List Int) (hre : e < r) :
    ¬ prefixMatch ends (r :: rs) (e :: d) := by
  intro h
  have := prefixMatch_head_le ends r e rs d h
  omega

theorem endsRun_false_of_runs_nil (cells : List Cell) (h : runsAfter false cells = []) :
    endsRun false cells = false := by
  induction cells with
  | nil => rfl
  | cons c rest ih => cases c <;> simp_all [runsAfter, endsRun]

theorem endsRun_cons_not_filled (prev : Bool) (c : Cell) (rest : List Cell)
    (hc : c ≠ Cell.Filled) : endsRun prev (c :: rest) = endsRun false rest := by
  simp [endsRun, hc]

theorem endsRun_cons_filled (prev : Bool) (rest : List Cell) :
    endsRun prev (Cell.Filled :: rest) = endsRun true rest := by
  simp [endsRun]

/-- The partial check from a loop state: it returns, and returns `true` exactly when the
runs still to come, the one in progress included, fit the definition from `curr` on. -/
theorem lineCheck_partial (cells : List Cell) :
    ∀ (curr : List Int) (num : Int) (prev : Bool),
      (∀ c ∈ cells, c ≠ Cell.None) → LineInv curr num prev →
      ∃ b, lineCheck false cells curr num prev = .ok b ∧
        (b = true ↔ prefixMatch (endsRun prev cells) (pendingRuns num prev cells) curr) := by
  induction cells with
  | nil =>
    intro curr num prev _ hinv
    refine ⟨true, by simp [lineCheck, detail.doCheckEnd], ?_⟩
    cases prev with
    | true =>
      obtain ⟨e, rest, rfl, h1, h2⟩ := hinv
      simp [endsRun, pendingRuns, leadingFilled, runsAfter, prefixMatch, h2]
    | false => simp [endsRun, pendingRuns, runsAfter, prefixMatch]
  | cons cell rest ih =>
    intro curr num prev hcells hinv
    have hrest : ∀ c ∈ rest, c ≠ Cell.None := fun c hc => hcells c (List.mem_cons_of_mem _ hc)
    have hcell : cell ≠ Cell.None := hcells cell (List.mem_cons_self _ _)
    have hlead : (0 : Int) ≤ (leadingFilled rest : Int) := Int.ofNat_nonneg _
    cases cell with
    | None => exact absurd rfl hcell
    | Empty =>
      rw [endsRun_cons_not_filled prev Cell.Empty rest (by simp)]
      cases prev with
      | true =>
        obtain ⟨e, tl, rfl, h1, h2⟩ := hinv
        have hpend : pendingRuns num true (Cell.Empty :: rest) =
            num :: (runsAfter false rest).map Int.ofNat := by
          simp [pendingRuns, leadingFilled, runsAfter]
        have hclosed := prefixMatch_cons_closed (endsRun false rest) num e
          ((runsAfter false rest).map Int.ofNat) tl
          (fun h => endsRun_false_of_runs_nil rest (by simpa using h))
        rw [hpend, hclosed]
        by_cases hne : num = e
        · obtain ⟨b, hb, hiff⟩ := ih tl 0 false hrest (by simp [LineInv])
          refine ⟨b, by simp [lineCheck, detail.doCheckCell, detail.deref, hne, hb], ?_⟩
          rw [hiff]
          simp [pendingRuns, hne]
        · exact ⟨false, by simp [lineCheck, detail.doCheckCell, detail.deref, hne],
            by simp [hne]⟩
      | false =>
        obtain ⟨b, hb, hiff⟩ := ih curr num false hrest hinv
        refine ⟨b, by simp [lineCheck, detail.doCheckCell, hb], ?_⟩
        rw [hiff]
        simp [pendingRuns, runsAfter]
    | Filled =>
      rw [endsRun_cons_filled prev rest]
      cases prev with
      | true =>
        obtain ⟨e, tl, rfl, h1, h2⟩ := hinv
        have hpend : pendingRuns num true (Cell.Filled :: rest) =
            (num + 1 + leadingFilled rest) :: (runsAfter true rest).map Int.ofNat := by
          simp [pendingRuns, leadingFilled, runsAfter]; omega
        rw [hpend]
        by_cases hgt : e < num + 1
        · refine ⟨false, by simp [lineCheck, detail.doCheckCell, detail.deref, hgt], ?_⟩
          have := prefixMatch_cons_open (endsRun true rest) (num + 1 + leadingFilled rest) e
            ((runsAfter true rest).map Int.ofNat) tl (by omega)
          simp [this]
        · obtain ⟨b, hb, hiff⟩ := ih (e :: tl) (num + 1) true hrest
            (by simp only [LineInv, if_true]; exact ⟨e, tl, rfl, by omega, by omega⟩)
          refine ⟨b, by simp [lineCheck, detail.doCheckCell, detail.deref, hgt, hb], ?_⟩
          rw [hiff]
          simp [pendingRuns]
      | false =>
        have hnum : num = 0 := by simpa [LineInv] using hinv
        subst hnum
        have hpend : pendingRuns 0 false (Cell.Filled :: rest) =
            ((1 : Int) + leadingFilled rest) :: (runsAfter true rest).map Int.ofNat := by
          simp [pendingRuns, runsAfter]; omega
        rw [hpend]
        cases curr with
        | nil =>
          exact ⟨false, by simp [lineCheck, detail.doCheckCell], by simp [prefixMatch]⟩
        | cons e tl =>
          by_cases hgt : e < 1
          · refine ⟨false, by simp [lineCheck, detail.doCheckCell, detail.deref, hgt], ?_⟩
            have := prefixMatch_cons_open (endsRun true rest) ((1 : Int) + leadingFilled rest) e
              ((runsAfter true rest).map Int.ofNat) tl (by omega)
            simp [this]
          · obtain ⟨b, hb, hiff⟩ := ih (e :: tl) 1 true hrest
              (by simp only [LineInv, if_true]; exact ⟨e, tl, rfl, by omega, by omega⟩)
            refine ⟨b, by simp [lineCheck, detail.doCheckCell, detail.deref, hgt, hb], ?_⟩
            rw [hiff]
            simp [pendingRuns]

theorem prefixMatch_iff (ends : Bool) : ∀ (rs d : List Int),
    prefixMatch ends rs d ↔
      rs.length ≤ d.length ∧
      (∀ i r, rs[i]? = some r → (i + 1 < rs.length ∨ ends = false) → d[i]? = some r) ∧
      (ends = true → ∀ i r, rs[i]? = some r → i + 1 = rs.length →
        ∃ e, d[i]? = some e ∧ r ≤ e)
  | [], d => by simp [prefixMatch]
  | r :: rs, [] => by simp [prefixMatch]
  | [r], e :: d => by
    cases ends with
    | false =>
      simp only [prefixMatch, Bool.false_eq_true, if_false, List.length_singleton,
        List.length_cons, List.length_nil, or_true, true_implies, false_implies, and_true]
      constructor
      · intro h
        subst h
        refine ⟨by omega, ?_⟩
        intro i r1 hi
        cases i with
        | zero => simpa using hi
        | succ j => simp at hi
      · rintro ⟨-, h⟩
        have := h 0 r (by simp)
        simpa using this.symm
    | true =>
      simp only [prefixMatch, if_true, List.length_singleton, List.length_cons,
        List.length_nil]
      constructor
      · intro h
        refine ⟨by omega, ?_, ?_⟩
        · intro i r1 hi hc
          cases i with
          | zero => rcases hc with hc | hc <;> simp at hc
          | succ j => simp at hi
        · intro _ i r1 hi _
          cases i with
          | zero =>
            have : r = r1 := by simpa using hi
            subst this
            exact ⟨e, by simp, h⟩
          | succ j => simp at hi
      · rintro ⟨-, -, h⟩
        obtain ⟨e1, he1, hle⟩ := h trivial 0 r (by simp) (by simp)
        have : e = e1 := by simpa using he1
        subst this
        exact hle
  | r :: r1 :: rs, e :: d => by
    have ih := prefixMatch_iff ends (r1 :: rs) d
    have hl1 : (r1 :: rs).length = rs.length + 1 := rfl
    have hl2 : (r :: r1 :: rs).length = rs.length + 2 := rfl
    have hl3 : (e :: d).length = d.length + 1 := rfl
    simp only [prefixMatch, ih]
    constructor
    · rintro ⟨hre, ha, hb, hc⟩
      subst hre
      refine ⟨by omega, ?_, ?_⟩
      · intro i r2 hi hcond
        cases i with
        | zero =>
          have : r = r2 := by simpa using hi
          subst this
          simp
        | succ j =>
          simp only [List.getElem?_cons_succ] at hi ⊢
          exact hb j r2 hi (by
            rcases hcond with h | h
            · left; omega
            · right; exact h)
      · intro hends i r2 hi hlast
        cases i with
        | zero => omega
        | succ j =>
          simp only [List.getElem?_cons_succ] at hi ⊢
          exact hc hends j r2 hi (by omega)
    · rintro ⟨ha, hb, hc⟩
      refine ⟨?_, by omega, ?_, ?_⟩
      · have := hb 0 r (by simp) (Or.inl (by omega))
        simpa using this.symm
      · intro i r2 hi hcond
        have := hb (i + 1) r2 (by simpa using hi) (by
          rcases hcond with h | h
          · left; omega
          · right; exact h)
        simpa using this
      · intro hends i r2 hi hlast
        have := hc hends (i + 1) r2 (by simpa using hi) (by omega)
        simpa using this

theorem endsRun_eq_true_iff : ∀ (cells : List Cell) (prev : Bool),
    endsRun prev cells = true ↔
      (cells.getLast? = some Cell.Filled ∨ (cells = [] ∧ prev = true))
  | [], prev => by simp [endsRun]
  | [c], prev => by simp [endsRun]
  | c :: c1 :: rest, prev => by
    rw [endsRun, endsRun_eq_true_iff (c1 :: rest)]
    simp [List.getLast?_cons_cons]

theorem endsRun_false_iff (cells : List Cell) :
    (endsRun false cells = true ↔ cells.getLast? = some Cell.Filled) ∧
    (endsRun false cells = false ↔ cells.getLast? ≠ some Cell.Filled) := by
  have h := endsRun_eq_true_iff cells false
  simp only [Bool.false_eq_true, and_false, or_false] at h
  refine ⟨h, ?_⟩
  rw [Ne, ← h]
  simp

theorem lineCheck_partial_iff (cells : List Cell) (d : List Int)
    (hcells : ∀ c ∈ cells, c ≠ Cell.None) :
    ∃ b, lineCheck false cells d 0 false = .ok b ∧ (b = true ↔ PartialMatch cells d) := by
  obtain ⟨b, hb, hiff⟩ := lineCheck_partial cells d 0 false hcells (lineInv_start d)
  refine ⟨b, hb, ?_⟩
  rw [hiff, prefixMatch_iff]
  have hpend : pendingRuns 0 false cells = (runs cells).map Int.ofNat := by
    simp [pendingRuns, runs]
  rw [hpend]
  unfold PartialMatch
  rw [(endsRun_false_iff cells).1, (endsRun_false_iff cells).2]

/-- C14. The partial line check: on a prefix of `Empty`/`Filled` cells `doCheck` with
`exact = false` returns, and returns `true` exactly when (a) the prefix has at most `len(d)`
runs of `Filled` cells, (b) each run closed by an `Empty` cell inside the prefix is the
entry of `d` at its position, and (c) a run left open by a final `Filled` cell is at most
the entry of `d` at its position; and when it returns `false`, no extension of the prefix
by `Empty`/`Filled` cells has the run lengths `d`. -/
theorem partial_check_iff (cells : List Cell) (d : List Int)
    (hcells : ∀ cell ∈ cells, cell = Cell.Empty ∨ cell = Cell.Filled) :
    (∃ b, detail.doCheck (fun i => vecAt cells i) d cells.length false = .ok b ∧
      (b = true ↔ PartialMatch cells d)) ∧
    (detail.doCheck (fun i => vecAt cells i) d cells.length false = .ok false →
      ∀ more : List Cell, (∀ cell ∈ more, cell = Cell.Empty ∨ cell = Cell.Filled) →
        (runs (cells ++ more)).map Int.ofNat ≠ d) := by
  rw [doCheck_vecAt]
  refine ⟨lineCheck_partial_iff cells d (ne_None_of_decided cells hcells), ?_⟩
  intro hfalse more hmore hruns
  have hall : ∀ c ∈ cells ++ more, c ≠ Cell.None := by
    intro c hc
    rcases List.mem_append.mp hc with h | h
    · exact ne_None_of_decided cells hcells c h
    · exact ne_None_of_decided more hmore c h
  have htrue := lineCheck_prefix_of_runs cells more d hall hruns
  rw [hfalse] at htrue
  simp at htrue

theorem partial_check_iff_witness :
    (∃ b, detail.doCheck (fun i => vecAt [Cell.Filled, Cell.Empty, Cell.Filled] i) [1, 2]
        ([Cell.Filled, Cell.Empty, Cell.Filled].length) false = .ok b ∧
      (b = true ↔ PartialMatch [Cell.Filled, Cell.Empty, Cell.Filled] [1, 2])) ∧
    detail.doCheck (fun i => vecAt [Cell.Filled, Cell.Empty, Cell.Filled] i) [1, 2]
        ([Cell.Filled, Cell.Empty, Cell.Filled].length) false = .ok true :=
  ⟨(partial_check_iff [Cell.Filled, Cell.Empty, Cell.Filled] [1, 2] (by decide)).1, by rfl⟩

/-! ## The search: faults, termination, frame -/

/-- C15. The internal-inconsistency branch is unreachable: on a puzzle with at least one row
and one column `solve` returns normally, so no line check has read an undecided cell (that
read throws `logic_error`, which nothing catches) and `solve` does not fail with the
internal inconsistency. -/
theorem no_internal_inconsistency (input : ProblemInput)
    (_hR : 1 ≤ input.rowdef.length) (hC : 1 ≤ input.coldef.length) :
    (∃ r, solve input = .ok r) ∧ ∀ what, solve input ≠ .error (.logic_error what) := by
  rcases solve_spec input hC with ⟨g1, h1, -, -⟩ | ⟨h1, -⟩
  · exact ⟨⟨_, h1⟩, fun what h => by rw [h1] at h; simp at h⟩
  · exact ⟨⟨_, h1⟩, fun what h => by rw [h1] at h; simp at h⟩

theorem no_internal_inconsistency_witness :
    (∃ r, solve ⟨[[1, 1], [2]], [[1], [1], [2]]⟩ = .ok r) ∧
      ∀ what, solve ⟨[[1, 1], [2]], [[1], [1], [2]]⟩ ≠ .error (.logic_error what) :=
  no_internal_inconsistency ⟨[[1, 1], [2]], [[1], [1], [2]]⟩ (by decide) (by decide)

theorem remaining_advance (idx : MatrixIndex) :
    idx.advance.remaining = idx.remaining - 1 := by
  obtain ⟨R, C, row, col⟩ := idx
  by_cases h : col + 1 = C
  · simp only [MatrixIndex.advance, h, if_true, MatrixIndex.remaining]
    rw [Int.add_mul]
    omega
  · simp only [MatrixIndex.advance, h, if_false, MatrixIndex.remaining]
    omega

theorem remaining_idxAt (R C k : Nat) : (idxAt R C k).remaining = (R : Int) * C - k := by
  simp only [MatrixIndex.remaining, idxAt, offset_idxAt]

theorem solveTry_mono (input : ProblemInput)
    (rec1 rec2 : Matrix Cell → MatrixIndex → Except Exn (Bool × Matrix Cell))
    (hrec : ∀ data idx r, rec1 data idx = .ok r → rec2 data idx = .ok r)
    (data : Matrix Cell) (idx : MatrixIndex) (v : Cell) (r : Bool × Matrix Cell)
    (h : detail.solveTry rec1 data idx input v = .ok r) :
    detail.solveTry rec2 data idx input v = .ok r := by
  unfold detail.solveTry at h ⊢
  cases hset : data.setIdx idx v with
  | error e => simp [hset] at h
  | ok d1 =>
    simp only [hset] at h ⊢
    cases hck : detail.check d1 idx input with
    | error e => simp [hck] at h
    | ok c =>
      simp only [hck] at h ⊢
      cases c with
      | false => exact h
      | true => exact hrec _ _ _ h

/-- A result that `detail::solve` reaches within some depth is the result within any greater
depth. -/
theorem solve_fuel_succ (input : ProblemInput) :
    ∀ (fuel : Nat) (data : Matrix Cell) (idx : MatrixIndex) (r : Bool × Matrix Cell),
      detail.solve input fuel data idx = .ok r →
      detail.solve input (fuel + 1) data idx = .ok r := by
  intro fuel
  induction fuel with
  | zero =>
    intro data idx r h
    simp [detail.solve] at h
  | succ f ih =>
    intro data idx r h
    rw [detail.solve] at h ⊢
    by_cases hend : idx.is_end = true
    · simp only [hend, if_true] at h ⊢
      exact h
    · simp only [hend, if_false] at h ⊢
      cases hE : detail.solveTry (detail.solve input f) data idx input Cell.Empty with
      | error e => simp [hE] at h
      | ok rE =>
        rw [solveTry_mono input _ _ ih data idx Cell.Empty rE hE]
        obtain ⟨bE, dE⟩ := rE
        simp only [hE] at h
        cases bE with
        | true => exact h
        | false =>
          simp only at h ⊢
          cases hF : detail.solveTry (detail.solve input f) dE idx input Cell.Filled with
          | error e => simp [hF] at h
          | ok rF =>
            rw [solveTry_mono input _ _ ih dE idx Cell.Filled rF hF]
            simp only [hF] at h
            exact h

theorem solve_fuel_le (input : ProblemInput) (data : Matrix Cell) (idx : MatrixIndex)
    (r : Bool × Matrix Cell) (f : Nat) (h : detail.solve input f data idx = .ok r) :
    ∀ fuel, f ≤ fuel → detail.solve input fuel data idx = .ok r := by
  intro fuel hle
  induction fuel with
  | zero =>
    have : f = 0 := by omega
    subst this; exact h
  | succ n ih =>
    by_cases hfn : f = n + 1
    · subst hfn; exact h
    · exact solve_fuel_succ input n data idx r (ih (by omega))

/-- C16. Termination of the search: on a puzzle with at least one column, the recursion
started at `(0, 0)` on the freshly allocated grid returns within `R * C + 1` levels, the
first call and at most `R * C` nested ones, and returns the same with any greater bound;
`R * C - (row * C + column)` is `R * C` at the start, goes down by one with each advance of
the cursor, the cursor a recursive call is made with, and after `R * C` advances the cursor
is terminal. -/
theorem search_terminates (input : ProblemInput) (hC : 1 ≤ input.coldef.length) :
    (∃ b G, ∀ fuel, input.rowdef.length * input.coldef.length + 1 ≤ fuel →
      detail.solve input fuel
        (Matrix.mk (List.replicate (input.rowdef.length * input.coldef.length) Cell.None)
          input.rowdef.length input.coldef.length)
        (MatrixIndex.ofSizes input.rowdef.length input.coldef.length) = .ok (b, G)) ∧
    (∀ idx : MatrixIndex, idx.advance.remaining = idx.remaining - 1 ∧
      idx.advance.remaining < idx.remaining) ∧
    (∀ k, (MatrixIndex.advanceTimes k
        (MatrixIndex.ofSizes input.rowdef.length input.coldef.length)).remaining =
      (input.rowdef.length : Int) * input.coldef.length - k) ∧
    (MatrixIndex.advanceTimes (input.rowdef.length * input.coldef.length)
      (MatrixIndex.ofSizes input.rowdef.length input.coldef.length)).is_end = true := by
  refine ⟨?_, ?_, ?_, ?_⟩
  · obtain ⟨b, g1, hsolve, -⟩ :=
      searchSpec input hC (input.rowdef.length * input.coldef.length) 0
        (List.replicate (input.rowdef.length * input.coldef.length) Cell.None)
        (input.rowdef.length * input.coldef.length + 1) (by omega) (by simp)
        (fun p hp => absurd hp (by omega)) (Nat.le_refl _)
    rw [ofSizes_eq_idxAt]
    exact ⟨b, _, fun fuel hfuel => solve_fuel_le input _ _ _ _ hsolve fuel hfuel⟩
  · intro idx
    have := remaining_advance idx
    exact ⟨this, by omega⟩
  · intro k
    rw [advanceTimes_ofSizes _ _ hC, remaining_idxAt]
  · rw [advanceTimes_ofSizes _ _ hC, idxAt_is_end _ _ _ hC (Nat.le_refl _)]
    exact decide_eq_true rfl

theorem search_terminates_witness :
    ∃ b G, ∀ fuel, 2 * 2 + 1 ≤ fuel →
      detail.solve ⟨[[1], [1]], [[1], [1]]⟩ fuel
        (Matrix.mk (List.replicate (2 * 2) Cell.None) (2 : Nat) (2 : Nat))
        (MatrixIndex.ofSizes (2 : Nat) (2 : Nat)) = .ok (b, G) :=
  (search_terminates ⟨[[1], [1]], [[1], [1]]⟩ (by decide)).1

theorem setIdx_frame (data data1 : Matrix Cell) (idx : MatrixIndex) (v : Cell)
    (h : data.setIdx idx v = .ok data1) :
    SameBefore data data1 (idx.row_ * data.colnum_ + idx.col_) := by
  simp only [Matrix.setIdx, Matrix.set, vecSet] at h
  by_cases hneg : idx.row_ * data.colnum_ + idx.col_ < 0
  · simp [hneg] at h
  · by_cases hlt : (idx.row_ * data.colnum_ + idx.col_).toNat < data.c.length
    · simp only [hneg, if_false, hlt, if_true] at h
      have hd : data1 = Matrix.mk (data.c.set (idx.row_ * data.colnum_ + idx.col_).toNat v)
          data.rownum_ data.colnum_ := by
        injection h with h; exact h.symm
      subst hd
      refine ⟨rfl, rfl, by simp, ?_⟩
      intro p hp
      exact List.getElem?_set_ne (by omega)
    · simp [hneg, hlt] at h

theorem offset_advance (idx : MatrixIndex) :
    idx.advance.colnum_ = idx.colnum_ ∧
    idx.advance.row_ * idx.colnum_ + idx.advance.col_ =
      idx.row_ * idx.colnum_ + idx.col_ + 1 := by
  obtain ⟨R, C, row, col⟩ := idx
  by_cases h : col + 1 = C
  · simp only [MatrixIndex.advance, h, if_true, true_and]
    rw [Int.add_mul]
    omega
  · simp only [MatrixIndex.advance, h, if_false, true_and]
    omega

theorem SameBefore.trans_le {data data1 data2 : Matrix Cell} {off off1 : Int}
    (h1 : SameBefore data data1 off) (h2 : SameBefore data1 data2 off1) (hle : off ≤ off1) :
    SameBefore data data2 off := by
  obtain ⟨a1, b1, c1, d1⟩ := h1
  obtain ⟨a2, b2, c2, d2⟩ := h2
  refine ⟨a2.trans a1, b2.trans b1, c2.trans c1, fun p hp => ?_⟩
  rw [d2 p (by omega), d1 p hp]

theorem solveTry_frame (input : ProblemInput)
    (recurse : Matrix Cell → MatrixIndex → Except Exn (Bool × Matrix Cell))
    (hrec : ∀ (data : Matrix Cell) (idx : MatrixIndex) (b : Bool) (data1 : Matrix Cell),
      idx.colnum_ = data.colnum_ → recurse data idx = .ok (b, data1) →
      SameBefore data data1 (idx.row_ * idx.colnum_ + idx.col_))
    (data : Matrix Cell) (idx : MatrixIndex) (v : Cell) (b : Bool) (data1 : Matrix Cell)
    (hcol : idx.colnum_ = data.colnum_)
    (h : detail.solveTry recurse data idx input v = .ok (b, data1)) :
    SameBefore data data1 (idx.row_ * idx.colnum_ + idx.col_) := by
  unfold detail.solveTry at h
  cases hset : data.setIdx idx v with
  | error e => simp [hset] at h
  | ok d1 =>
    have hf1 := setIdx_frame data d1 idx v hset
    rw [← hcol] at hf1
    simp only [hset] at h
    cases hck : detail.check d1 idx input with
    | error e => simp [hck] at h
    | ok r =>
      simp only [hck] at h
      cases r with
      | false =>
        have : d1 = data1 := by
          injection h with h; injection h
        rw [← this]; exact hf1
      | true =>
        have hadv := offset_advance idx
        have hf2 := hrec d1 idx.advance b data1 (by rw [hadv.1, hcol, hf1.2.1]) h
        rw [hadv.1, hadv.2] at hf2
        exact hf1.trans_le hf2 (by omega)

/-- Whatever `detail::solve` returns, it has left the extents and the cells before the
cursor as they were. -/
theorem solve_frame (input : ProblemInput) :
    ∀ (fuel : Nat) (data : Matrix Cell) (idx : MatrixIndex) (b : Bool) (data1 : Matrix Cell),
      idx.colnum_ = data.colnum_ → detail.solve input fuel data idx = .ok (b, data1) →
      SameBefore data data1 (idx.row_ * idx.colnum_ + idx.col_) := by
  intro fuel
  induction fuel with
  | zero =>
    intro data idx b data1 _ h
    simp [detail.solve] at h
  | succ f ih =>
    intro data idx b data1 hcol h
    simp only [detail.solve] at h
    by_cases hend : idx.is_end = true
    · simp only [hend, if_true] at h
      have : data = data1 := by
        injection h with h; injection h
      rw [← this]
      exact ⟨rfl, rfl, rfl, fun _ _ => rfl⟩
    · simp only [hend, if_false] at h
      cases hE : detail.solveTry (detail.solve input f) data idx input Cell.Empty with
      | error e => simp [hE] at h
      | ok rE =>
        obtain ⟨bE, dE⟩ := rE
        have hfE := solveTry_frame input _ ih data idx Cell.Empty bE dE hcol hE
        simp only [hE] at h
        cases bE with
        | true =>
          have : dE = data1 := by
            injection h with h; injection h
          rw [← this]; exact hfE
        | false =>
          simp only at h
          cases hF : detail.solveTry (detail.solve input f) dE idx input Cell.Filled with
          | error e => simp [hF] at h
          | ok rF =>
            obtain ⟨bF, dF⟩ := rF
            have hfF := solveTry_frame input _ ih dE idx Cell.Filled bF dF
              (by rw [hcol, hfE.2.1]) hF
            simp only [hF] at h
            have : dF = data1 := by
              cases bF <;> (injection h with h; injection h)
            rw [← this]
            exact hfE.trans_le hfF (Int.le_refl _)

theorem get_eq_of_sameBefore (data data1 : Matrix Cell) (off : Int)
    (h : SameBefore data data1 off) (i j : Int) (hlt : i * data.colnum_ + j < off) :
    data1.get i j = data.get i j := by
  obtain ⟨-, hc, -, hsame⟩ := h
  simp only [Matrix.get, hc, vecAt]
  by_cases hneg : i * data.colnum_ + j < 0
  · simp [hneg]
  · simp only [hneg, if_false]
    rw [hsame (i * data.colnum_ + j).toNat (by omega)]

/-- C17. Frame of a search step: on a grid with extents `R >= 1`, `C >= 1` and a
non-terminal in-bounds cursor over it, when `detail::solve(data, idx, input)` returns, with
either result, the extents of the grid are unchanged and every cell at a scan position
before the cursor holds the value it held before the call. -/
theorem search_frame (input : ProblemInput) (fuel : Nat) (data data1 : Matrix Cell)
    (idx : MatrixIndex) (b : Bool)
    (_hR : 1 ≤ data.rownum_) (_hC : 1 ≤ data.colnum_) (_hwf : data.WellFormed)
    (_hidxR : idx.rownum_ = data.rownum_) (hidxC : idx.colnum_ = data.colnum_)
    (_hrow : 0 ≤ idx.row_ ∧ idx.row_ < data.rownum_)
    (_hcol : 0 ≤ idx.col_ ∧ idx.col_ < data.colnum_)
    (h : detail.solve input fuel data idx = .ok (b, data1)) :
    data1.rownum_ = data.rownum_ ∧ data1.colnum_ = data.colnum_ ∧
    ∀ i j : Int, 0 ≤ i → 0 ≤ j → j < data.colnum_ →
      i * data.colnum_ + j < idx.row_ * data.colnum_ + idx.col_ →
      data1.get i j = data.get i j := by
  have hf := solve_frame input fuel data idx b data1 hidxC h
  rw [hidxC] at hf
  refine ⟨hf.1, hf.2.1, ?_⟩
  intro i j _ _ _ hlt
  exact get_eq_of_sameBefore data data1 _ hf i j hlt

theorem search_frame_witness :
    detail.solve ⟨[[1], [1]], [[1], [1]]⟩ 4
        ⟨[Cell.Empty, Cell.None, Cell.None, Cell.None], 2, 2⟩ ⟨2, 2, 0, 1⟩ =
      .ok (true, ⟨[Cell.Empty, Cell.Filled, Cell.Filled, Cell.Empty], 2, 2⟩) ∧
    detail.solve ⟨[[1], [1]], [[1], [1]]⟩ 4
        ⟨[Cell.Filled, Cell.Filled, Cell.None, Cell.None], 2, 2⟩ ⟨2, 2, 1, 0⟩ =
      .ok (false, ⟨[Cell.Filled, Cell.Filled, Cell.Filled, Cell.Filled], 2, 2⟩) ∧
    (Matrix.mk [Cell.Filled, Cell.Filled, Cell.Filled, Cell.Filled] 2 2).get 0 1 =
      (Matrix.mk [Cell.Filled, Cell.Filled, Cell.None, Cell.None] 2 2).get 0 1 :=
  ⟨by rfl, by rfl,
    (search_frame ⟨[[1], [1]], [[1], [1]]⟩ 4
      ⟨[Cell.Filled, Cell.Filled, Cell.None, Cell.None], 2, 2⟩ _ ⟨2, 2, 1, 0⟩ false
      (by decide) (by decide) (by decide) (by decide) (by decide) (by decide) (by decide)
      (by rfl)).2.2 0 1 (by decide) (by decide) (by decide) (by decide)⟩

end yunosolver
